import Mathlib

/-
Verification of the DSM-to-viewshed service orchestration layer.

The TypeScript service (app.service.ts, app.controller.ts) validates a
viewshed request, checks the configured DSM file, spawns a subordinate
engine process, extracts the last line of its stdout, parses it as JSON,
validates it as a GeoJSON FeatureCollection, and maps failures to HTTP
responses.  Below, JS strings are modelled as `List Char`, JS numbers as
`Rat`, and `JSON.parse` as an executable fuel-based parser.
-/

namespace DsmViewshed

/-
Character classes.  `jsonWs` is the whitespace accepted by `JSON.parse`
(space, tab, line feed, carriage return).  `jsWhite` is the larger set
stripped by JavaScript `String.prototype.trim` (ECMAScript WhiteSpace and
LineTerminator code points).
-/

def jsonWs (c : Char) : Bool :=
  c = ' ' || c = '\t' || c = '\n' || c = '\r'

def jsWhiteChars : List Char :=
  [' ', '\t', '\n', '\r', '\x0b', '\x0c', '\u00A0', '\uFEFF', '\u1680',
   '\u2000', '\u2001', '\u2002', '\u2003', '\u2004', '\u2005', '\u2006',
   '\u2007', '\u2008', '\u2009', '\u200A', '\u2028', '\u2029', '\u202F',
   '\u205F', '\u3000']

def jsWhite (c : Char) : Bool := jsWhiteChars.contains c

/-
JavaScript string operations used by the service:
`s.trim()`, `s.split('\n')`, array `.pop()` (last element),
`hay.includes(needle)`.
-/

def trimStart (s : List Char) : List Char := s.dropWhile jsWhite

def trimEnd (s : List Char) : List Char := (s.reverse.dropWhile jsWhite).reverse

def jsTrim (s : List Char) : List Char := trimStart (trimEnd s)

def splitNl : List Char → List (List Char)
  | [] => [[]]
  | c :: cs =>
    if c = '\n' then [] :: splitNl cs
    else
      match splitNl cs with
      | [] => [[c]]
      | l :: ls => (c :: l) :: ls

def hasSubstr (hay needle : List Char) : Bool :=
  hay.tails.any (fun t => needle.isPrefixOf t)

/-
`const lastLine = stdoutData.trim().split('\n').pop(); if (!lastLine) ...`
(app.service.ts).  `pop` of an empty split result is `undefined`, and both
`undefined` and the empty string are falsy, hence `Option`.
-/
def extractLastLine (stdoutData : List Char) : Option (List Char) :=
  match (splitNl (jsTrim stdoutData)).getLast? with
  | none => none
  | some l => if l = [] then none else some l

/-
`const outputLines = stdoutData.split('\n').filter(line => line.trim() !== '');
 const jsonLine = outputLines[outputLines.length - 1]; if (!jsonLine) ...`
(the earlier revision of runPythonViewshed).
-/
def extractLastNonEmpty (stdoutData : List Char) : Option (List Char) :=
  match ((splitNl stdoutData).filter (fun l => !(jsTrim l).isEmpty)).getLast? with
  | none => none
  | some l => if l = [] then none else some l

/-
JSON values as produced by `JSON.parse`.  Number literals keep their
source text (the claims under verification never compare distinct
numeric literals).
-/

inductive Json where
  | null : Json
  | bool (b : Bool) : Json
  | num (lit : List Char) : Json
  | str (s : List Char) : Json
  | arr (items : List Json) : Json
  | obj (members : List (List Char × Json)) : Json

/- Whitespace accepted by the JSON grammar, as skipped by `JSON.parse`. -/
def skipWs (s : List Char) : List Char := s.dropWhile jsonWs

def hexVal (c : Char) : Option Nat :=
  if '0' ≤ c ∧ c ≤ '9' then some (c.toNat - 48)
  else if 'a' ≤ c ∧ c ≤ 'f' then some (c.toNat - 87)
  else if 'A' ≤ c ∧ c ≤ 'F' then some (c.toNat - 55)
  else none

def escChar (c : Char) : Option Char :=
  if c = '"' then some '"'
  else if c = '\\' then some '\\'
  else if c = '/' then some '/'
  else if c = 'b' then some '\x08'
  else if c = 'f' then some '\x0c'
  else if c = 'n' then some '\n'
  else if c = 'r' then some '\r'
  else if c = 't' then some '\t'
  else none

/- Body of a JSON string, after the opening quote. -/
def parseStrBody : List Char → Option (List Char × List Char)
  | [] => none
  | c :: cs =>
    if c = '"' then some ([], cs)
    else if c = '\\' then
      match cs with
      | [] => none
      | e :: cs' =>
        if e = 'u' then
          match cs' with
          | h1 :: h2 :: h3 :: h4 :: rest =>
            match hexVal h1, hexVal h2, hexVal h3, hexVal h4 with
            | some a, some b, some d, some e' =>
              match parseStrBody rest with
              | some (r, rest') =>
                some (Char.ofNat (((a * 16 + b) * 16 + d) * 16 + e') :: r, rest')
              | none => none
            | _, _, _, _ => none
          | _ => none
        else
          match escChar e with
          | some d =>
            match parseStrBody cs' with
            | some (r, rest') => some (d :: r, rest')
            | none => none
          | none => none
    else if c.toNat < 32 then none
    else
      match parseStrBody cs with
      | some (r, rest') => some (c :: r, rest')
      | none => none

/- JSON number grammar: -? (0 | [1-9][0-9]*) frac? exp? -/
def parseIntPart : List Char → Option (List Char × List Char)
  | [] => none
  | c :: cs =>
    if c = '0' then some (['0'], cs)
    else
      let ds := (c :: cs).takeWhile Char.isDigit
      if ds.isEmpty then none else some (ds, (c :: cs).dropWhile Char.isDigit)

def parseFracPart (s : List Char) : Option (List Char × List Char) :=
  match s with
  | [] => some ([], [])
  | c :: r =>
    if c = '.' then
      let ds := r.takeWhile Char.isDigit
      if ds.isEmpty then none else some ('.' :: ds, r.dropWhile Char.isDigit)
    else some ([], c :: r)

def parseExpPart (s : List Char) : Option (List Char × List Char) :=
  match s with
  | [] => some ([], [])
  | c :: r =>
    if c = 'e' ∨ c = 'E' then
      let sgnr : List Char × List Char :=
        match r with
        | [] => ([], [])
        | d :: r' => if d = '+' then (['+'], r') else if d = '-' then (['-'], r') else ([], d :: r')
      let ds := sgnr.2.takeWhile Char.isDigit
      if ds.isEmpty then none
      else some (c :: (sgnr.1 ++ ds), sgnr.2.dropWhile Char.isDigit)
    else some ([], c :: r)

def parseNum (s : List Char) : Option (Json × List Char) :=
  let sgns : List Char × List Char :=
    match s with
    | [] => ([], [])
    | c :: r => if c = '-' then (['-'], r) else ([], c :: r)
  match parseIntPart sgns.2 with
  | none => none
  | some (ip, s₂) =>
    match parseFracPart s₂ with
    | none => none
    | some (fp, s₃) =>
      match parseExpPart s₃ with
      | none => none
      | some (ep, s₄) => some (.num (sgns.1 ++ ip ++ fp ++ ep), s₄)

/-
The JSON value grammar.  `parseVal` expects its input to begin at a
non-whitespace character; the callers skip whitespace.  The fuel argument
only bounds recursion depth; `2 * length + 2` is always sufficient.
-/
mutual

def parseVal : Nat → List Char → Option (Json × List Char)
  | 0, _ => none
  | _ + 1, [] => none
  | fuel + 1, c :: r =>
    if c = '\x7b' then
      match parseMembersStart fuel r with
      | some (kvs, r') => some (.obj kvs, r')
      | none => none
    else if c = '[' then
      match parseItemsStart fuel r with
      | some (vs, r') => some (.arr vs, r')
      | none => none
    else if c = '"' then
      match parseStrBody r with
      | some (cs, r') => some (.str cs, r')
      | none => none
    else if c = 't' then
      match r with
      | r1 :: r2 :: r3 :: r' =>
        if r1 = 'r' ∧ r2 = 'u' ∧ r3 = 'e' then some (.bool true, r') else none
      | _ => none
    else if c = 'f' then
      match r with
      | r1 :: r2 :: r3 :: r4 :: r' =>
        if r1 = 'a' ∧ r2 = 'l' ∧ r3 = 's' ∧ r4 = 'e' then some (.bool false, r') else none
      | _ => none
    else if c = 'n' then
      match r with
      | r1 :: r2 :: r3 :: r' =>
        if r1 = 'u' ∧ r2 = 'l' ∧ r3 = 'l' then some (.null, r') else none
      | _ => none
    else parseNum (c :: r)

def parseItemsStart : Nat → List Char → Option (List Json × List Char)
  | 0, _ => none
  | fuel + 1, s =>
    match skipWs s with
    | [] => none
    | c :: r =>
      if c = ']' then some ([], r)
      else
        match parseVal fuel (c :: r) with
        | none => none
        | some (v, r₂) =>
          match parseItemsRest fuel r₂ with
          | none => none
          | some (vs, r') => some (v :: vs, r')

def parseItemsRest : Nat → List Char → Option (List Json × List Char)
  | 0, _ => none
  | fuel + 1, s =>
    match skipWs s with
    | [] => none
    | c :: r =>
      if c = ']' then some ([], r)
      else if c = ',' then
        match parseVal fuel (skipWs r) with
        | none => none
        | some (v, r₂) =>
          match parseItemsRest fuel r₂ with
          | none => none
          | some (vs, r') => some (v :: vs, r')
      else none

def parseMemberPair (parseValF : List Char → Option (Json × List Char))
    (r : List Char) : Option ((List Char × Json) × List Char) :=
  match parseStrBody r with
  | none => none
  | some (k, r₂) =>
    match skipWs r₂ with
    | [] => none
    | c₂ :: r₃ =>
      if c₂ = ':' then
        match parseValF (skipWs r₃) with
        | none => none
        | some (v, r₄) => some ((k, v), r₄)
      else none

def parseMembersStart : Nat → List Char → Option (List (List Char × Json) × List Char)
  | 0, _ => none
  | fuel + 1, s =>
    match skipWs s with
    | [] => none
    | c :: r =>
      if c = '\x7d' then some ([], r)
      else if c = '"' then
        match parseMemberPair (parseVal fuel) r with
        | none => none
        | some (kv, r₄) =>
          match parseMembersRest fuel r₄ with
          | none => none
          | some (kvs, r') => some (kv :: kvs, r')
      else none

def parseMembersRest : Nat → List Char → Option (List (List Char × Json) × List Char)
  | 0, _ => none
  | fuel + 1, s =>
    match skipWs s with
    | [] => none
    | c :: r =>
      if c = '\x7d' then some ([], r)
      else if c = ',' then
        match skipWs r with
        | [] => none
        | c₁ :: r₁ =>
          if c₁ = '"' then
            match parseMemberPair (parseVal fuel) r₁ with
            | none => none
            | some (kv, r₄) =>
              match parseMembersRest fuel r₄ with
              | none => none
              | some (kvs, r') => some (kv :: kvs, r')
          else none
      else none

end

/- `JSON.parse`: a whole string parses iff it is whitespace, one value,
whitespace. -/
def jsonParse (s : List Char) : Option Json :=
  match parseVal (2 * (jsTrim s).length + 2) (skipWs s) with
  | none => none
  | some (v, rest) => if skipWs rest = [] then some v else none

/-
The GeoJSON shape check performed on the parsed value:
`result.type !== 'FeatureCollection' || !Array.isArray(result.features)`.
Property access on a non-object yields `undefined` (never equal to a
string, never an array); property access on `null` throws a TypeError.
-/

def jget (j : Json) (key : List Char) : Option Json :=
  match j with
  | .obj kvs => (kvs.reverse.find? (fun kv => kv.1 == key)).map (·.2)
  | _ => none

def isArrayJson : Option Json → Bool
  | some (.arr _) => true
  | _ => false

def typeKey : List Char := "type".data
def featuresKey : List Char := "features".data
def featureCollectionStr : List Char := "FeatureCollection".data

def fcCheckFails (j : Json) : Bool :=
  !(match jget j typeKey with
    | some (.str s) => s == featureCollectionStr
    | _ => false) || !(isArrayJson (jget j featuresKey))

def nullReadTypeMsg : List Char :=
  "Cannot read properties of null (reading \x27type\x27)".data

def invalidGeojsonMsg : List Char := "Invalid GeoJSON format".data

def fcError (j : Json) : Option (List Char) :=
  match j with
  | .null => some nullReadTypeMsg
  | _ => if fcCheckFails j then some invalidGeojsonMsg else none

/-
Service-level failures.  `badRequest` models `BadRequestException`
(NestJS client-error class), `internalError` models
`InternalServerErrorException` (server-error class).
-/
inductive ServiceError where
  | badRequest (msg : List Char)
  | internalError (msg : List Char)

def errMessage : ServiceError → List Char
  | .badRequest m => m
  | .internalError m => m

def viewshedFailedMsg : List Char := "Viewshed calculation failed".data
def emptyRespMsg : List Char := "Empty response from Python script".data

def invalidFmtMsg (detail : List Char) : List Char :=
  "Invalid viewshed format: ".data ++ detail

/-
The `close` event handler of the spawned process (app.service.ts).
`synErrMsg` stands for the JS engine's `SyntaxError.message` produced by
a failing `JSON.parse` on the given input; the repository does not define
its text, so it is kept as a parameter.
-/
def closeHandler (synErrMsg : List Char → List Char) (code : Int)
    (stdoutData : List Char) : Except ServiceError Json :=
  if code ≠ 0 then .error (.internalError viewshedFailedMsg)
  else
    match extractLastLine stdoutData with
    | none => .error (.internalError (invalidFmtMsg emptyRespMsg))
    | some lastLine =>
      match jsonParse lastLine with
      | none => .error (.internalError (invalidFmtMsg (synErrMsg lastLine)))
      | some result =>
        match fcError result with
        | some m => .error (.internalError (invalidFmtMsg m))
        | none => .ok result

/-
Request parameters (interface RunPythonViewshedParams).  `mountHeightFt`
is optional at the model level so that the `!mountHeightFt` falsiness
check can observe null/absent; `maxDistance` is declared optional in the
source interface.
-/
structure RunPythonViewshedParams where
  lng : Rat
  lat : Rat
  mountHeightFt : Option Rat
  maxDistance : Option Rat

def falsyNum : Option Rat → Bool
  | none => true
  | some x => x == 0

def DSM_PATH : List Char := "uploads/usgs_l_lasda.tif".data

/- The positional argument list handed to `spawn` (after the script name). -/
structure SpawnArgs where
  script : List Char
  dsmPath : List Char
  lngArg : Rat
  latArg : Rat
  mountHeightArg : Rat

inductive Preflight where
  | rejected (e : ServiceError)
  | proceed (args : SpawnArgs)

def dsmNotFoundMsg : List Char := "DSM file not found: uploads/usgs_l_lasda.tif".data
def invalidLngLatMsg : List Char := "Invalid longitude or latitude values".data
def mountHeightRequiredMsg : List Char := "Mount height is required".data

/-
The checks performed before `spawn` is reached, in source order
(app.service.ts lines 17-40): DSM existence, then lng/lat range, then
`!mountHeightFt`; on success the spawn argument list is formed.
-/
def preflight (dsmExists : Bool) (p : RunPythonViewshedParams) : Preflight :=
  if dsmExists = false then .rejected (.badRequest dsmNotFoundMsg)
  else if p.lng < -180 ∨ p.lng > 180 ∨ p.lat < -90 ∨ p.lat > 90 then
    .rejected (.badRequest invalidLngLatMsg)
  else if falsyNum p.mountHeightFt then
    .rejected (.badRequest mountHeightRequiredMsg)
  else
    .proceed
      { script := "./process_dsm.py".data
        dsmPath := DSM_PATH
        lngArg := p.lng
        latArg := p.lat
        mountHeightArg := p.mountHeightFt.getD 0 }

/- Behaviour of one subordinate-process execution. -/
inductive EngineOutcome where
  | spawnFailed
  | exited (code : Int) (stdoutData stderrData : List Char)

def spawnFailMsg : List Char := "Failed to start viewshed calculation".data

def runPythonViewshed (synErrMsg : List Char → List Char) (dsmExists : Bool)
    (outcome : EngineOutcome) (p : RunPythonViewshedParams) :
    Except ServiceError Json :=
  match preflight dsmExists p with
  | .rejected e => .error e
  | .proceed _ =>
    match outcome with
    | .spawnFailed => .error (.internalError spawnFailMsg)
    | .exited code stdoutData _stderrData => closeHandler synErrMsg code stdoutData

/-
The controller's catch block (app.controller revision taking the request
body): status 400 iff `error.message.includes('outside the DSM extent')`,
500 otherwise; the body is `{ error: message }` with a fallback text for
an empty message.
-/
inductive RespBody where
  | geojson (j : Json)
  | errBody (msg : List Char)

def HTTP_OK : Nat := 200
def HTTP_BAD_REQUEST : Nat := 400
def HTTP_INTERNAL : Nat := 500

def defaultErrMsg : List Char := "An error occurred while processing the viewshed.".data
def extentNeedle : List Char := "outside the DSM extent".data

def calculateViewshed (svc : Except ServiceError Json) : Nat × RespBody :=
  match svc with
  | .ok geojson => (HTTP_OK, .geojson geojson)
  | .error e =>
    let m := errMessage e
    let message := if m.isEmpty then defaultErrMsg else m
    (if hasSubstr m extentNeedle then HTTP_BAD_REQUEST else HTTP_INTERNAL,
     .errBody message)

/- The end-to-end pipeline: controller around service. -/
def handleViewshedRequest (synErrMsg : List Char → List Char) (dsmExists : Bool)
    (outcome : EngineOutcome) (p : RunPythonViewshedParams) : Nat × RespBody :=
  calculateViewshed (runPythonViewshed synErrMsg dsmExists outcome p)

/-
Claim theorems.
-/

/-
Small Boolean helper used when unpacking the FeatureCollection check.
-/
theorem bool_not_or_false {a b : Bool} (h : (!a || !b) = false) :
    a = true ∧ b = true := by
  cases a <;> cases b <;> simp_all

/-- C1.  The claim says client-error failures (InvalidInput, DsmNotFound)
are surfaced as HTTP 400.  The code contradicts this: the controller's
catch block derives the status solely from a substring test on the error
message, so a request with `lng = 200` (DSM present, engine irrelevant)
is answered with HTTP 500 carrying the invalid-input message, although
the service threw the NestJS client-error exception class.  This theorem
evaluates the pipeline at that failing input. -/
theorem invalid_input_surfaced_as_500_not_400 :
    handleViewshedRequest (fun _ => []) true (.exited 0 [] [])
      ⟨200, 0, some 30, none⟩ = (500, .errBody invalidLngLatMsg) := by
  rfl

/-- C2 counterexample.  The claim says the Input Validator runs before the
DSM Locator, so out-of-range coordinates fail with the input-validation
error even when the DSM file is absent.  In the code the DSM existence
check comes first: with the DSM absent and `lng = 200` the request is
rejected with the DSM-not-found message, not the input-validation
message. -/
theorem dsm_check_precedes_validation_cex :
    preflight false ⟨200, 0, some 30, none⟩
        = .rejected (.badRequest dsmNotFoundMsg)
      ∧ dsmNotFoundMsg ≠ invalidLngLatMsg := by
  exact ⟨rfl, by decide⟩

/-- C2 amended.  The components run in the order DSM Locator, then Input
Validator, then Engine Invoker: the DSM file's existence is checked
before input validity, so a request whose coordinates are out of range
fails with the DSM-not-found error when the configured DSM file is
absent, and with the input-validation error when it is present. -/
theorem dsm_check_precedes_validation (p : RunPythonViewshedParams)
    (h : p.lng < -180 ∨ p.lng > 180 ∨ p.lat < -90 ∨ p.lat > 90) :
    preflight false p = .rejected (.badRequest dsmNotFoundMsg)
      ∧ preflight true p = .rejected (.badRequest invalidLngLatMsg) := by
  constructor
  · rfl
  · unfold preflight
    rw [if_neg (by simp), if_pos h]

theorem dsm_check_precedes_validation_witness :
    preflight false ⟨200, 0, some 30, none⟩
        = .rejected (.badRequest dsmNotFoundMsg)
      ∧ preflight true ⟨200, 0, some 30, none⟩
        = .rejected (.badRequest invalidLngLatMsg) :=
  dsm_check_precedes_validation ⟨200, 0, some 30, none⟩ (by right; left; decide)

/-- C3.  For every request with `lng` outside [-180, 180] or `lat`
outside [-90, 90], `runPythonViewshed` fails with a client-error
(`BadRequestException`) and the subordinate-process spawn is never
reached: the preflight checks reject before any engine outcome is
consulted. -/
theorem out_of_range_rejected_before_spawn
    (synErrMsg : List Char → List Char) (dsmExists : Bool)
    (outcome : EngineOutcome) (p : RunPythonViewshedParams)
    (h : p.lng < -180 ∨ p.lng > 180 ∨ p.lat < -90 ∨ p.lat > 90) :
    (∃ m, preflight dsmExists p = .rejected (.badRequest m)
      ∧ runPythonViewshed synErrMsg dsmExists outcome p = .error (.badRequest m))
    ∧ ∀ a, preflight dsmExists p ≠ .proceed a := by
  cases dsmExists with
  | false =>
    refine ⟨⟨dsmNotFoundMsg, rfl, rfl⟩, ?_⟩
    intro a hc
    exact Preflight.noConfusion hc
  | true =>
    have hp : preflight true p = .rejected (.badRequest invalidLngLatMsg) := by
      unfold preflight
      rw [if_neg (by simp), if_pos h]
    refine ⟨⟨invalidLngLatMsg, hp, ?_⟩, ?_⟩
    · unfold runPythonViewshed
      rw [hp]
    · intro a hc
      rw [hp] at hc
      exact Preflight.noConfusion hc

theorem out_of_range_rejected_before_spawn_witness :
    (∃ m, preflight true ⟨0, 95, some 30, none⟩ = .rejected (.badRequest m)
      ∧ runPythonViewshed (fun _ => []) true .spawnFailed ⟨0, 95, some 30, none⟩
          = .error (.badRequest m))
    ∧ ∀ a, preflight true ⟨0, 95, some 30, none⟩ ≠ .proceed a :=
  out_of_range_rejected_before_spawn (fun _ => []) true .spawnFailed
    ⟨0, 95, some 30, none⟩ (by right; right; right; decide)

/-- C4 counterexample.  The claim says every non-positive `mountHeight`
(including negative values) is rejected by validation.  In the code the
check is the JS falsiness test `!mountHeightFt`, so the negative value
-5 passes validation and is handed to the engine as the mount-height
argument. -/
theorem negative_mount_height_accepted_cex :
    preflight true ⟨0, 0, some (-5), none⟩
      = .proceed
          { script := "./process_dsm.py".data
            dsmPath := DSM_PATH
            lngArg := 0
            latArg := 0
            mountHeightArg := -5 } := by
  rfl

/-- C4 amended.  `mountHeight` is required to be truthy, not positive:
for `mountHeightFt` equal to 0, null, or absent (the falsy values) the
request fails with a client-error before the engine is invoked, while
any non-zero value, including negative ones, passes validation and is
forwarded to the engine. -/
theorem mount_height_falsy_check (p : RunPythonViewshedParams)
    (hr : ¬(p.lng < -180 ∨ p.lng > 180 ∨ p.lat < -90 ∨ p.lat > 90)) :
    (falsyNum p.mountHeightFt = true →
      preflight true p = .rejected (.badRequest mountHeightRequiredMsg))
    ∧ (∀ m : Rat, p.mountHeightFt = some m → m ≠ 0 →
        preflight true p = .proceed
          { script := "./process_dsm.py".data
            dsmPath := DSM_PATH
            lngArg := p.lng
            latArg := p.lat
            mountHeightArg := m }) := by
  constructor
  · intro hf
    unfold preflight
    rw [if_neg (by simp), if_neg hr, if_pos hf]
  · intro m hm hm0
    have hf : falsyNum p.mountHeightFt = false := by
      rw [hm]
      simpa [falsyNum] using hm0
    unfold preflight
    rw [if_neg (by simp), if_neg hr, if_neg (by rw [hf]; exact Bool.false_ne_true)]
    rw [hm]
    rfl

theorem mount_height_falsy_check_witness :
    (falsyNum (some 0 : Option Rat) = true →
      preflight true ⟨0, 0, some 0, none⟩
        = .rejected (.badRequest mountHeightRequiredMsg))
    ∧ (∀ m : Rat, (some 0 : Option Rat) = some m → m ≠ 0 →
        preflight true ⟨0, 0, some 0, none⟩ = .proceed
          { script := "./process_dsm.py".data
            dsmPath := DSM_PATH
            lngArg := 0
            latArg := 0
            mountHeightArg := m }) :=
  mount_height_falsy_check ⟨0, 0, some 0, none⟩ (by decide)

/-- C5 counterexample.  The claim says a present, non-positive
`maxDistance` is a client-error.  In the code `maxDistance` is never
inspected: with `maxDistance = -10` and otherwise valid input the
request passes validation and proceeds to the engine. -/
theorem non_positive_max_distance_accepted_cex :
    preflight true ⟨0, 0, some 30, some (-10)⟩
      = .proceed
          { script := "./process_dsm.py".data
            dsmPath := DSM_PATH
            lngArg := 0
            latArg := 0
            mountHeightArg := 30 } := by
  rfl

/-- C5 amended.  `maxDistance` is accepted in the request type but
ignored by the service: it is neither validated nor forwarded to the
engine, and the whole request outcome is independent of it (the spawn
argument list carries only the script, DSM path, longitude, latitude and
mount height).  Any defaulting of the analysis radius happens inside the
engine script, outside this layer. -/
theorem max_distance_ignored (synErrMsg : List Char → List Char)
    (dsmExists : Bool) (outcome : EngineOutcome)
    (p : RunPythonViewshedParams) (v v' : Option Rat) :
    preflight dsmExists { p with maxDistance := v }
        = preflight dsmExists { p with maxDistance := v' }
      ∧ runPythonViewshed synErrMsg dsmExists outcome { p with maxDistance := v }
        = runPythonViewshed synErrMsg dsmExists outcome { p with maxDistance := v' } :=
  ⟨rfl, rfl⟩

/-- C7.  When the engine exits 0: if the extracted last stdout line is
not valid JSON, or the parsed value fails the FeatureCollection check
(`type` field, `features` array), the request fails with the NestJS
server-error class and a message prefixed "Invalid viewshed format";
and any value actually returned has passed both checks. -/
theorem invalid_geojson_server_error (synErrMsg : List Char → List Char)
    (stdoutData : List Char) :
    (∀ l, extractLastLine stdoutData = some l → jsonParse l = none →
        closeHandler synErrMsg 0 stdoutData
          = .error (.internalError (invalidFmtMsg (synErrMsg l))))
    ∧ (∀ l j, extractLastLine stdoutData = some l → jsonParse l = some j →
        fcCheckFails j = true →
        ∃ d, closeHandler synErrMsg 0 stdoutData
          = .error (.internalError (invalidFmtMsg d)))
    ∧ (∀ j, closeHandler synErrMsg 0 stdoutData = .ok j →
        jget j typeKey = some (.str featureCollectionStr)
        ∧ ∃ fs, jget j featuresKey = some (.arr fs)) := by
  refine ⟨?_, ?_, ?_⟩
  · intro l hl hp
    unfold closeHandler
    simp only [hl, hp]
    rfl
  · intro l j hl hp hfc
    unfold closeHandler
    simp only [hl, hp]
    cases j with
    | null => exact ⟨nullReadTypeMsg, by simp [fcError]⟩
    | bool b => exact ⟨invalidGeojsonMsg, by simp [fcError, hfc]⟩
    | num lit => exact ⟨invalidGeojsonMsg, by simp [fcError, hfc]⟩
    | str cs => exact ⟨invalidGeojsonMsg, by simp [fcError, hfc]⟩
    | arr xs => exact ⟨invalidGeojsonMsg, by simp [fcError, hfc]⟩
    | obj kvs => exact ⟨invalidGeojsonMsg, by simp [fcError, hfc]⟩
  · intro j hj
    unfold closeHandler at hj
    cases hext : extractLastLine stdoutData with
    | none => simp only [hext] at hj; simp at hj
    | some l =>
      simp only [hext] at hj
      cases hp : jsonParse l with
      | none => simp only [hp] at hj; simp at hj
      | some r =>
        simp only [hp] at hj
        cases hf : fcError r with
        | some m => simp only [hf] at hj; simp at hj
        | none =>
          simp only [hf] at hj
          have hrj : r = j := by simpa using hj
          subst hrj
          cases r with
          | null => simp [fcError] at hf
          | bool b => simp [fcError, fcCheckFails, jget, isArrayJson] at hf
          | num lit => simp [fcError, fcCheckFails, jget, isArrayJson] at hf
          | str cs => simp [fcError, fcCheckFails, jget, isArrayJson] at hf
          | arr xs => simp [fcError, fcCheckFails, jget, isArrayJson] at hf
          | obj kvs =>
            have hpass : fcCheckFails (.obj kvs) = false := by
              by_contra hcon
              rw [Bool.not_eq_false] at hcon
              simp [fcError, hcon] at hf
            unfold fcCheckFails at hpass
            obtain ⟨h1, h2⟩ := bool_not_or_false hpass
            constructor
            · cases ht : jget (.obj kvs) typeKey with
              | none => simp only [ht] at h1; exact Bool.noConfusion h1
              | some tv =>
                cases tv with
                | str s =>
                  simp only [ht] at h1
                  rw [eq_of_beq h1]
                | null => simp only [ht] at h1; exact Bool.noConfusion h1
                | bool b => simp only [ht] at h1; exact Bool.noConfusion h1
                | num lit => simp only [ht] at h1; exact Bool.noConfusion h1
                | arr xs => simp only [ht] at h1; exact Bool.noConfusion h1
                | obj kvs' => simp only [ht] at h1; exact Bool.noConfusion h1
            · cases hftr : jget (.obj kvs) featuresKey with
              | none => simp [hftr, isArrayJson] at h2
              | some fv =>
                cases fv with
                | arr fs => exact ⟨fs, rfl⟩
                | null => simp [hftr, isArrayJson] at h2
                | bool b => simp [hftr, isArrayJson] at h2
                | num lit => simp [hftr, isArrayJson] at h2
                | str s => simp [hftr, isArrayJson] at h2
                | obj kvs' => simp [hftr, isArrayJson] at h2

theorem invalid_geojson_server_error_witness :
    (∀ l, extractLastLine ("notjson".data) = some l → jsonParse l = none →
        closeHandler (fun _ => []) 0 ("notjson".data)
          = .error (.internalError (invalidFmtMsg ((fun _ => ([] : List Char)) l))))
    ∧ (∀ l j, extractLastLine ("notjson".data) = some l → jsonParse l = some j →
        fcCheckFails j = true →
        ∃ d, closeHandler (fun _ => []) 0 ("notjson".data)
          = .error (.internalError (invalidFmtMsg d)))
    ∧ (∀ j, closeHandler (fun _ => []) 0 ("notjson".data) = .ok j →
        jget j typeKey = some (.str featureCollectionStr)
        ∧ ∃ fs, jget j featuresKey = some (.arr fs)) :=
  invalid_geojson_server_error (fun _ => []) ("notjson".data)

/-- C8.  The claim says no failure response ever contains raw engine
output.  Two parts do hold: a non-zero exit yields the fixed message
"Viewshed calculation failed" whatever stdout/stderr contain, and the
result never depends on the captured stderr.  But when the extracted
last stdout line fails `JSON.parse`, the caller-visible message embeds
the runtime's `SyntaxError.message` applied to that raw stdout line
(`Invalid viewshed format: ${e.message}`); on Node 20 that message
quotes the offending line, so raw stdout reaches the caller.  This
theorem exhibits the dependence at the stdout "hello". -/
theorem raw_output_reaches_caller_on_parse_failure
    (synErrMsg : List Char → List Char) (code : Int)
    (so se se' : List Char) (p : RunPythonViewshedParams) :
    closeHandler synErrMsg 0 ("hello".data)
        = .error (.internalError (invalidFmtMsg (synErrMsg ("hello".data))))
    ∧ (code ≠ 0 → closeHandler synErrMsg code so
        = .error (.internalError viewshedFailedMsg))
    ∧ runPythonViewshed synErrMsg true (.exited code so se) p
        = runPythonViewshed synErrMsg true (.exited code so se') p := by
  refine ⟨rfl, ?_, rfl⟩
  intro h
  unfold closeHandler
  rw [if_pos h]

theorem raw_output_reaches_caller_on_parse_failure_witness :
    closeHandler (fun _ => "SYN".data) 0 ("hello".data)
        = .error (.internalError (invalidFmtMsg "SYN".data))
    ∧ closeHandler (fun _ => "SYN".data) 1 ("diag".data)
        = .error (.internalError viewshedFailedMsg)
    ∧ runPythonViewshed (fun _ => "SYN".data) true (.exited 1 ("diag".data) ("boom".data))
          ⟨0, 0, some 30, none⟩
        = runPythonViewshed (fun _ => "SYN".data) true (.exited 1 ("diag".data) [])
          ⟨0, 0, some 30, none⟩ :=
  ⟨(raw_output_reaches_caller_on_parse_failure (fun _ => "SYN".data) 1
      ("diag".data) ("boom".data) [] ⟨0, 0, some 30, none⟩).1,
   (raw_output_reaches_caller_on_parse_failure (fun _ => "SYN".data) 1
      ("diag".data) ("boom".data) [] ⟨0, 0, some 30, none⟩).2.1 (by decide),
   (raw_output_reaches_caller_on_parse_failure (fun _ => "SYN".data) 1
      ("diag".data) ("boom".data) [] ⟨0, 0, some 30, none⟩).2.2⟩

/-- C9.  Whenever a failure's propagated error message contains the
substring "outside the DSM extent", the controller answers with HTTP
status 400 instead of 500. -/
theorem extent_message_reclassified_400 (e : ServiceError)
    (h : hasSubstr (errMessage e) extentNeedle = true) :
    (calculateViewshed (.error e)).fst = HTTP_BAD_REQUEST := by
  unfold calculateViewshed
  simp only [h]
  rfl

theorem extent_message_reclassified_400_witness :
    (calculateViewshed (.error (.internalError
      ("point (200, 0) is outside the DSM extent".data)))).fst
        = HTTP_BAD_REQUEST :=
  extent_message_reclassified_400
    (.internalError ("point (200, 0) is outside the DSM extent".data))
    (by decide)

/-
Machinery for the output-extraction claims: properties of JS trim,
split and the JSON parser.
-/

theorem jsonWs_imp_jsWhite {c : Char} (h : jsonWs c = true) : jsWhite c = true := by
  simp only [jsonWs, Bool.or_eq_true, decide_eq_true_eq] at h
  rcases h with ((h | h) | h) | h <;> subst h <;> decide

theorem dropWhile_ws_append_all {p : Char → Bool} {w s : List Char}
    (hw : ∀ c ∈ w, p c = true) : (w ++ s).dropWhile p = s.dropWhile p := by
  rw [List.dropWhile_append]
  have h : w.dropWhile p = [] := List.dropWhile_eq_nil_iff.mpr hw
  simp [h]

theorem dropWhile_append_of_ne_nil {p : Char → Bool} {a b : List Char}
    (h : a.dropWhile p ≠ []) : (a ++ b).dropWhile p = a.dropWhile p ++ b := by
  rw [List.dropWhile_append]
  simp [List.isEmpty_iff, h]

theorem trimEnd_append_ws {s w : List Char} (hw : ∀ c ∈ w, jsWhite c = true) :
    trimEnd (s ++ w) = trimEnd s := by
  unfold trimEnd
  rw [List.reverse_append, dropWhile_ws_append_all (fun c hc => hw c (List.mem_reverse.mp hc))]

theorem trimEnd_concat_not_ws {s : List Char} {c : Char} (hc : jsWhite c = false) :
    trimEnd (s ++ [c]) = s ++ [c] := by
  unfold trimEnd
  rw [List.reverse_append]
  simp only [List.reverse_cons, List.reverse_nil, List.nil_append, List.singleton_append,
    List.dropWhile_cons, hc]
  simp

theorem trimEnd_decomp (s : List Char) :
    ∃ w, s = trimEnd s ++ w ∧ ∀ c ∈ w, jsWhite c = true := by
  refine ⟨(s.reverse.takeWhile jsWhite).reverse, ?_, ?_⟩
  · conv_lhs => rw [← s.reverse_reverse, ← List.takeWhile_append_dropWhile (p := jsWhite) (l := s.reverse)]
    rw [List.reverse_append]
    rfl
  · intro c hc
    exact List.mem_takeWhile_imp (List.mem_reverse.mp hc)

theorem trimStart_decomp (s : List Char) :
    ∃ w, s = w ++ trimStart s ∧ ∀ c ∈ w, jsWhite c = true := by
  refine ⟨s.takeWhile jsWhite, ?_, ?_⟩
  · conv_lhs => rw [← List.takeWhile_append_dropWhile (p := jsWhite) (l := s)]
    rfl
  · intro c hc
    exact List.mem_takeWhile_imp hc

theorem trimStart_ws_append {w s : List Char} (hw : ∀ c ∈ w, jsWhite c = true) :
    trimStart (w ++ s) = trimStart s :=
  dropWhile_ws_append_all hw

theorem trimStart_append_of_ne {a b : List Char} (h : trimStart a ≠ []) :
    trimStart (a ++ b) = trimStart a ++ b :=
  dropWhile_append_of_ne_nil h

theorem trimEnd_ne_nil_iff {s : List Char} : trimEnd s ≠ [] ↔ s.reverse.dropWhile jsWhite ≠ [] := by
  unfold trimEnd
  simp

theorem trimEnd_append_of_ne {a b : List Char} (h : trimEnd b ≠ []) :
    trimEnd (a ++ b) = a ++ trimEnd b := by
  unfold trimEnd
  rw [List.reverse_append, dropWhile_append_of_ne_nil (trimEnd_ne_nil_iff.mp h)]
  rw [List.reverse_append, List.reverse_reverse]

theorem mem_trimEnd {c : Char} {s : List Char} (h : c ∈ trimEnd s) : c ∈ s := by
  unfold trimEnd at h
  rw [List.mem_reverse] at h
  exact List.mem_reverse.mp ((List.dropWhile_suffix jsWhite).mem h)

theorem mem_trimStart {c : Char} {s : List Char} (h : c ∈ trimStart s) : c ∈ s :=
  (List.dropWhile_suffix jsWhite).mem h

theorem mem_jsTrim {c : Char} {s : List Char} (h : c ∈ jsTrim s) : c ∈ s :=
  mem_trimEnd (mem_trimStart h)

theorem jsTrim_eq_nil_iff {s : List Char} :
    jsTrim s = [] ↔ ∀ c ∈ s, jsWhite c = true := by
  constructor
  · intro h c hc
    by_contra hnw
    obtain ⟨w, hsw, hw⟩ := trimEnd_decomp s
    have hte : ∀ x ∈ trimEnd s, jsWhite x = true := by
      have h1 : trimStart (trimEnd s) = [] := h
      exact List.dropWhile_eq_nil_iff.mp h1
    rcases List.mem_append.mp (hsw ▸ hc) with hmem | hmem
    · exact hnw (hte c hmem)
    · exact hnw (hw c hmem)
  · intro h
    unfold jsTrim
    have h1 : trimEnd s = [] ∨ ∀ c ∈ trimEnd s, jsWhite c = true :=
      Or.inr (fun c hc => h c (mem_trimEnd hc))
    rcases h1 with h1 | h1
    · simp [h1, trimStart]
    · exact List.dropWhile_eq_nil_iff.mpr h1

theorem splitNl_ne_nil (s : List Char) : splitNl s ≠ [] := by
  induction s with
  | nil => simp [splitNl]
  | cons c cs ih =>
    unfold splitNl
    split
    · simp
    · cases h : splitNl cs with
      | nil => simp
      | cons l ls => simp

theorem splitNl_no_newline {s : List Char} (h : '\n' ∉ s) : splitNl s = [s] := by
  induction s with
  | nil => rfl
  | cons c cs ih =>
    have hc : ¬(c = '\n') := fun he => h (he ▸ List.mem_cons_self c cs)
    have hcs : '\n' ∉ cs := fun hm => h (List.mem_cons_of_mem c hm)
    unfold splitNl
    rw [if_neg hc, ih hcs]

theorem splitNl_append_newline (x y : List Char) :
    splitNl (x ++ '\n' :: y) = splitNl x ++ splitNl y := by
  induction x with
  | nil => simp [splitNl]
  | cons c cs ih =>
    by_cases hc : c = '\n'
    · subst hc
      simp [splitNl, ih]
    · simp only [List.cons_append, splitNl, if_neg hc, List.append_eq]
      cases h : splitNl cs with
      | nil => exact absurd h (splitNl_ne_nil cs)
      | cons l ls => rw [ih, h]; simp

theorem mem_splitNl_mem {c : Char} {l s : List Char}
    (hl : l ∈ splitNl s) (hc : c ∈ l) : c ∈ s := by
  induction s generalizing l with
  | nil =>
    simp only [splitNl, List.mem_singleton] at hl
    subst hl
    exact absurd hc (List.not_mem_nil c)
  | cons d ds ih =>
    unfold splitNl at hl
    by_cases hd : d = '\n'
    · rw [if_pos hd] at hl
      rcases List.mem_cons.mp hl with he | he
      · subst he; exact absurd hc (List.not_mem_nil c)
      · exact List.mem_cons_of_mem d (ih he hc)
    · rw [if_neg hd] at hl
      cases h : splitNl ds with
      | nil => exact absurd h (splitNl_ne_nil ds)
      | cons m ms =>
        rw [h] at hl
        rcases List.mem_cons.mp hl with he | he
        · subst he
          rcases List.mem_cons.mp hc with he' | he'
          · exact he' ▸ List.mem_cons_self d ds
          · exact List.mem_cons_of_mem d (ih (h ▸ List.mem_cons_self m ms) he')
        · exact List.mem_cons_of_mem d (ih (h ▸ List.mem_cons_of_mem m he) hc)

theorem mem_splitNl_cover {c : Char} {s : List Char} (h : c ∈ s) :
    c = '\n' ∨ ∃ l ∈ splitNl s, c ∈ l := by
  induction s with
  | nil => exact absurd h (List.not_mem_nil c)
  | cons d ds ih =>
    by_cases hd : d = '\n'
    · rcases List.mem_cons.mp h with he | he
      · exact Or.inl (he.trans hd)
      · rcases ih he with he' | ⟨l, hl, hcl⟩
        · exact Or.inl he'
        · refine Or.inr ⟨l, ?_, hcl⟩
          unfold splitNl
          rw [if_pos hd]
          exact List.mem_cons_of_mem [] hl
    · cases hds : splitNl ds with
      | nil => exact absurd hds (splitNl_ne_nil ds)
      | cons m ms =>
        rcases List.mem_cons.mp h with he | he
        · refine Or.inr ⟨d :: m, ?_, he ▸ List.mem_cons_self d m⟩
          unfold splitNl
          rw [if_neg hd, hds]
          exact List.mem_cons_self (d :: m) ms
        · rcases ih he with he' | ⟨l, hl, hcl⟩
          · exact Or.inl he'
          · rw [hds] at hl
            rcases List.mem_cons.mp hl with hl' | hl'
            · refine Or.inr ⟨d :: m, ?_, hl' ▸ List.mem_cons_of_mem d hcl⟩
              unfold splitNl
              rw [if_neg hd, hds]
              exact List.mem_cons_self (d :: m) ms
            · refine Or.inr ⟨l, ?_, hcl⟩
              unfold splitNl
              rw [if_neg hd, hds]
              exact List.mem_cons_of_mem (d :: m) hl'

theorem getLast?_append_of_ne_nil {l l' : List (List Char)} (h : l' ≠ []) :
    (l ++ l').getLast? = l'.getLast? := by
  rw [List.getLast?_append]
  cases hg : l'.getLast? with
  | none => exact absurd (List.getLast?_eq_none_iff.mp hg) h
  | some x => rfl

theorem trimStart_concat_newline (p₀ : List Char)
    (h : trimStart (p₀ ++ ['\n']) ≠ []) :
    ∃ q₀, trimStart (p₀ ++ ['\n']) = q₀ ++ ['\n'] := by
  induction p₀ with
  | nil => exact absurd (by decide : trimStart ([] ++ ['\n']) = []) h
  | cons c cs ih =>
    rw [List.cons_append] at h ⊢
    by_cases hw : jsWhite c = true
    · rw [show trimStart (c :: (cs ++ ['\n'])) = trimStart (cs ++ ['\n']) from by
        simp [trimStart, List.dropWhile_cons, hw]] at h ⊢
      exact ih h
    · rw [show trimStart (c :: (cs ++ ['\n'])) = c :: (cs ++ ['\n']) from by
        simp [trimStart, List.dropWhile_cons, hw]]
      exact ⟨c :: cs, by simp⟩

/-
What `stdoutData.trim().split('\n').pop()` yields on a string made of
leading material, a final non-blank line `L`, and trailing whitespace:
the line `L`, trimmed at its right edge (and at its left edge too when
everything before it is whitespace).
-/
theorem extractLastLine_of_decomp {pre L post : List Char}
    (hpre : pre = [] ∨ ∃ p₀, pre = p₀ ++ ['\n'])
    (hL : '\n' ∉ L) (hnb : jsTrim L ≠ [])
    (hpost : ∀ c ∈ post, jsWhite c = true) :
    extractLastLine (pre ++ L ++ post) = some (jsTrim L)
    ∨ extractLastLine (pre ++ L ++ post) = some (trimEnd L) := by
  have hteL : trimEnd L ≠ [] := by
    intro h0
    apply hnb
    unfold jsTrim
    rw [h0]
    rfl
  have h1 : trimEnd (pre ++ L ++ post) = pre ++ trimEnd L := by
    rw [trimEnd_append_ws hpost, trimEnd_append_of_ne hteL]
  by_cases hts : trimStart pre = []
  · have hpw : ∀ c ∈ pre, jsWhite c = true := List.dropWhile_eq_nil_iff.mp hts
    have h2 : jsTrim (pre ++ L ++ post) = jsTrim L := by
      unfold jsTrim
      rw [h1, trimStart_ws_append hpw]
    left
    unfold extractLastLine
    rw [h2, splitNl_no_newline (fun hm => hL (mem_jsTrim hm))]
    simp [hnb]
  · right
    have hpne : pre ≠ [] := fun h0 => hts (by rw [h0]; rfl)
    rcases hpre with h0 | ⟨p₀, hp₀⟩
    · exact absurd h0 hpne
    subst hp₀
    obtain ⟨q₀, hq⟩ := trimStart_concat_newline p₀ hts
    have h2 : jsTrim (p₀ ++ ['\n'] ++ L ++ post) = q₀ ++ '\n' :: trimEnd L := by
      unfold jsTrim
      rw [h1, trimStart_append_of_ne hts, hq]
      simp
    unfold extractLastLine
    rw [h2, splitNl_append_newline, splitNl_no_newline (fun hm => hL (mem_trimEnd hm))]
    rw [getLast?_append_of_ne_nil (by simp)]
    simp [hteL]

theorem extractLastLine_all_ws {s : List Char} (h : ∀ c ∈ s, jsWhite c = true) :
    extractLastLine s = none := by
  unfold extractLastLine
  rw [jsTrim_eq_nil_iff.mpr h]
  rfl

theorem extractLastNonEmpty_all_ws {s : List Char}
    (h : ∀ c ∈ s, jsWhite c = true) : extractLastNonEmpty s = none := by
  unfold extractLastNonEmpty
  have hf : (splitNl s).filter (fun l => !(jsTrim l).isEmpty) = [] := by
    rw [List.filter_eq_nil_iff]
    intro l hl
    have : jsTrim l = [] :=
      jsTrim_eq_nil_iff.mpr (fun c hc => h c (mem_splitNl_mem hl hc))
    simp [this]
  rw [hf]
  rfl

theorem exists_first_newline {s : List Char} (h : '\n' ∈ s) :
    ∃ a b, s = a ++ '\n' :: b ∧ '\n' ∉ a := by
  have hdw : s.dropWhile (fun c => !(c = '\n')) ≠ [] := by
    intro h0
    have := List.dropWhile_eq_nil_iff.mp h0 '\n' h
    simp at this
  cases hd : s.dropWhile (fun c => !(c = '\n')) with
  | nil => exact absurd hd hdw
  | cons x xs =>
    have hx : x = '\n' := by
      have := List.head?_dropWhile_not (fun c => !(c = '\n')) s
      rw [hd] at this
      simpa using this
    refine ⟨s.takeWhile (fun c => !(c = '\n')), xs, ?_, ?_⟩
    · conv_lhs => rw [← List.takeWhile_append_dropWhile (p := fun c => !(c = '\n')) (l := s)]
      rw [hd, hx]
    · intro hm
      have := List.mem_takeWhile_imp hm
      simp at this

/-
Decomposition of a string with at least one non-blank line: it splits
as leading lines, the last non-blank line `L`, and an all-whitespace
tail, and `L` is the last entry of the non-blank-line filter.
-/
theorem splitNl_last_nonblank : ∀ (n : Nat) (s : List Char), s.length ≤ n →
    ((splitNl s).filter (fun l => !(jsTrim l).isEmpty)) ≠ [] →
    ∃ pre L post, s = pre ++ L ++ post
      ∧ (pre = [] ∨ ∃ p₀, pre = p₀ ++ ['\n'])
      ∧ '\n' ∉ L
      ∧ jsTrim L ≠ []
      ∧ (∀ c ∈ post, jsWhite c = true)
      ∧ ((splitNl s).filter (fun l => !(jsTrim l).isEmpty)).getLast? = some L := by
  intro n
  induction n with
  | zero =>
    intro s hlen hne
    have hs : s = [] := List.eq_nil_of_length_eq_zero (Nat.le_zero.mp hlen)
    subst hs
    exact absurd rfl hne
  | succ n ih =>
    intro s hlen hne
    by_cases hnl : '\n' ∈ s
    · obtain ⟨a, b, hab, hna⟩ := exists_first_newline hnl
      have hlb : b.length ≤ n := by
        have := congrArg List.length hab
        simp at this
        omega
      have hsplit : (splitNl s).filter (fun l => !(jsTrim l).isEmpty)
          = (if (jsTrim a).isEmpty = false then [a] else [])
            ++ (splitNl b).filter (fun l => !(jsTrim l).isEmpty) := by
        rw [hab, splitNl_append_newline, splitNl_no_newline hna, List.filter_append]
        congr 1
        by_cases hba : (jsTrim a).isEmpty = false
        · simp [List.filter, hba]
        · rw [Bool.not_eq_false] at hba
          simp [List.filter, hba]
      by_cases hfb : (splitNl b).filter (fun l => !(jsTrim l).isEmpty) = []
      · rw [hsplit, hfb, List.append_nil] at hne ⊢
        have hba : (jsTrim a).isEmpty = false := by
          by_contra hcon
          rw [Bool.not_eq_false] at hcon
          rw [if_neg (by simp [hcon])] at hne
          exact hne rfl
        rw [if_pos hba] at hne ⊢
        have hbw : ∀ c ∈ b, jsWhite c = true := by
          intro c hc
          rcases mem_splitNl_cover hc with he | ⟨l, hl, hcl⟩
          · subst he; decide
          · have hbl : ¬(!(jsTrim l).isEmpty) = true :=
              List.filter_eq_nil_iff.mp hfb l hl
            have hnil : jsTrim l = [] := by
              simp at hbl
              exact hbl
            exact jsTrim_eq_nil_iff.mp hnil c hcl
        refine ⟨[], a, '\n' :: b, by simpa using hab, Or.inl rfl, hna, ?_, ?_, rfl⟩
        · intro h0
          rw [h0] at hba
          exact absurd hba (by simp)
        · intro c hc
          rcases List.mem_cons.mp hc with he | he
          · subst he; decide
          · exact hbw c he
      · obtain ⟨pre', L, post', hb, hpre', hLn, hLnb, hpost', hlast⟩ :=
          ih b hlb hfb
        refine ⟨a ++ '\n' :: pre', L, post', ?_, ?_, hLn, hLnb, hpost', ?_⟩
        · rw [hab, hb]
          simp
        · rcases hpre' with h0 | ⟨p₀, hp₀⟩
          · exact Or.inr ⟨a, by rw [h0]⟩
          · exact Or.inr ⟨a ++ '\n' :: p₀, by rw [hp₀]; simp⟩
        · rw [hsplit, getLast?_append_of_ne_nil hfb]
          exact hlast
    · have hone : splitNl s = [s] := splitNl_no_newline hnl
      rw [hone] at hne ⊢
      have hba : (jsTrim s).isEmpty = false := by
        by_contra hcon
        rw [Bool.not_eq_false] at hcon
        exact hne (by simp [List.filter, hcon])
      refine ⟨[], s, [], by simp, Or.inl rfl, hnl, ?_, by simp, ?_⟩
      · intro h0
        rw [h0] at hba
        exact absurd hba (by simp)
      · simp [List.filter, hba]

/-
Whitespace facts for the JSON parser.
-/

theorem parseVal_nil (f : Nat) : parseVal f [] = none := by cases f <;> rfl

theorem skipWs_all_ws {w : List Char} (hw : ∀ c ∈ w, jsonWs c = true) :
    skipWs w = [] :=
  List.dropWhile_eq_nil_iff.mpr hw

theorem skipWs_append (s w : List Char) :
    skipWs (s ++ w) = if (skipWs s).isEmpty then skipWs w else skipWs s ++ w :=
  List.dropWhile_append

theorem jsonWs_char_cases {c : Char} (h : jsonWs c = true) :
    c = ' ' ∨ c = '\t' ∨ c = '\n' ∨ c = '\r' := by
  simp only [jsonWs, Bool.or_eq_true, decide_eq_true_eq] at h
  tauto

theorem jsonWs_not_digit {c : Char} (h : jsonWs c = true) : c.isDigit = false := by
  rcases jsonWs_char_cases h with h | h | h | h <;> subst h <;> decide

theorem jsonWs_hexVal {c : Char} (h : jsonWs c = true) : hexVal c = none := by
  rcases jsonWs_char_cases h with h | h | h | h <;> subst h <;> decide

theorem takeWhile_append_pfalse {p : Char → Bool} {w : List Char}
    (hw : ∀ c ∈ w, p c = false) (s : List Char) :
    (s ++ w).takeWhile p = s.takeWhile p
    ∧ (s ++ w).dropWhile p = s.dropWhile p ++ w := by
  induction s with
  | nil =>
    simp only [List.nil_append]
    cases w with
    | nil => exact ⟨rfl, rfl⟩
    | cons c cs =>
      have hc := hw c (List.mem_cons_self c cs)
      constructor
      · simp [List.takeWhile_cons, hc]
      · simp [List.dropWhile_cons, hc]
  | cons c cs ih =>
    by_cases hc : p c = true
    · constructor <;>
        simp [List.takeWhile_cons, List.dropWhile_cons, hc, ih.1, ih.2]
    · constructor <;>
        simp [List.takeWhile_cons, List.dropWhile_cons, hc]

theorem isDigit_takeWhile_ws_append {w : List Char}
    (hw : ∀ c ∈ w, jsonWs c = true) (s : List Char) :
    (s ++ w).takeWhile Char.isDigit = s.takeWhile Char.isDigit
    ∧ (s ++ w).dropWhile Char.isDigit = s.dropWhile Char.isDigit ++ w :=
  takeWhile_append_pfalse (fun c hc => jsonWs_not_digit (hw c hc)) s

/-
`parseStrBody` on pure whitespace fails (a whitespace tail cannot close
a JSON string), and appending whitespace to the input extends the
returned rest without changing the parse.
-/

theorem parseStrBody_all_ws {w : List Char} (hw : ∀ c ∈ w, jsonWs c = true) :
    parseStrBody w = none := by
  induction w with
  | nil => rfl
  | cons c cs ih =>
    have hc := hw c (List.mem_cons_self c cs)
    have hcs : ∀ x ∈ cs, jsonWs x = true :=
      fun x hx => hw x (List.mem_cons_of_mem c hx)
    rcases jsonWs_char_cases hc with h | h | h | h <;> subst h <;>
      (rw [parseStrBody.eq_def]; simp [ih hcs])

theorem parseStrBody_append_ws {w : List Char} (hw : ∀ c ∈ w, jsonWs c = true) :
    ∀ (n : Nat) (s : List Char), s.length ≤ n →
    parseStrBody (s ++ w) = (parseStrBody s).map (fun pr => (pr.1, pr.2 ++ w)) := by
  intro n
  induction n with
  | zero =>
    intro s hlen
    have hs : s = [] := List.eq_nil_of_length_eq_zero (Nat.le_zero.mp hlen)
    subst hs
    simp [parseStrBody_all_ws hw, parseStrBody]
  | succ n ih =>
    intro s hlen
    cases s with
    | nil => simp [parseStrBody_all_ws hw, parseStrBody]
    | cons c cs =>
      by_cases hq : c = '"'
      · subst hq
        simp only [List.cons_append]
        conv_lhs => rw [parseStrBody.eq_def]
        conv_rhs => rw [parseStrBody.eq_def]
        rfl
      by_cases hb : c = '\\'
      · subst hb
        cases cs with
        | nil =>
          simp only [List.cons_append, List.nil_append]
          conv_rhs => rw [parseStrBody.eq_def]
          conv_lhs => rw [parseStrBody.eq_def]
          cases w with
          | nil => rfl
          | cons e w' =>
            have he := hw e (List.mem_cons_self e w')
            rcases jsonWs_char_cases he with h | h | h | h <;> subst h <;> rfl
        | cons e cs' =>
          by_cases hu : e = 'u'
          · subst hu
            rcases cs' with _ | ⟨a, _ | ⟨b, _ | ⟨c3, _ | ⟨d, rest⟩⟩⟩⟩
            · simp only [List.cons_append, List.nil_append]
              conv_rhs => rw [parseStrBody.eq_def]
              conv_lhs => rw [parseStrBody.eq_def]
              rcases w with _ | ⟨w1, _ | ⟨w2, _ | ⟨w3, _ | ⟨w4, wr⟩⟩⟩⟩
              · rfl
              · rfl
              · rfl
              · rfl
              · have hw1 := hw w1 (by simp)
                simp [jsonWs_hexVal hw1]
            · simp only [List.cons_append, List.nil_append]
              conv_rhs => rw [parseStrBody.eq_def]
              conv_lhs => rw [parseStrBody.eq_def]
              rcases w with _ | ⟨w1, _ | ⟨w2, _ | ⟨w3, wr⟩⟩⟩
              · rfl
              · rfl
              · rfl
              · have hw1 := hw w1 (by simp)
                cases hha : hexVal a <;> simp [hha, jsonWs_hexVal hw1]
            · simp only [List.cons_append, List.nil_append]
              conv_rhs => rw [parseStrBody.eq_def]
              conv_lhs => rw [parseStrBody.eq_def]
              rcases w with _ | ⟨w1, _ | ⟨w2, wr⟩⟩
              · rfl
              · rfl
              · have hw1 := hw w1 (by simp)
                cases hha : hexVal a <;> cases hhb : hexVal b <;>
                  simp [hha, hhb, jsonWs_hexVal hw1]
            · simp only [List.cons_append, List.nil_append]
              conv_rhs => rw [parseStrBody.eq_def]
              conv_lhs => rw [parseStrBody.eq_def]
              rcases w with _ | ⟨w1, wr⟩
              · rfl
              · have hw1 := hw w1 (by simp)
                cases hha : hexVal a <;> cases hhb : hexVal b <;>
                  cases hhc : hexVal c3 <;>
                  simp [hha, hhb, hhc, jsonWs_hexVal hw1]
            · have hr : rest.length ≤ n := by
                simp at hlen
                omega
              simp only [List.cons_append]
              conv_rhs => rw [parseStrBody.eq_def]
              conv_lhs => rw [parseStrBody.eq_def]
              cases hha : hexVal a <;> cases hhb : hexVal b <;>
                cases hhc : hexVal c3 <;> cases hhd : hexVal d <;>
                simp [hha, hhb, hhc, hhd]
              rw [ih rest hr]
              cases hps : parseStrBody rest <;> simp [hps]
          · have hcs' : cs'.length ≤ n := by
              simp at hlen
              omega
            simp only [List.cons_append]
            conv_rhs => rw [parseStrBody.eq_def]
            conv_lhs => rw [parseStrBody.eq_def]
            cases hesc : escChar e with
            | none => simp [hu, hesc]
            | some d =>
              simp only [if_neg hu, hesc]
              rw [ih cs' hcs']
              cases hps : parseStrBody cs' <;> simp [hps]
      by_cases h32 : c.toNat < 32
      · simp only [List.cons_append]
        conv_rhs => rw [parseStrBody.eq_def]
        conv_lhs => rw [parseStrBody.eq_def]
        simp [hq, hb, h32]
      · have hcs : cs.length ≤ n := by
          simp at hlen
          omega
        simp only [List.cons_append]
        conv_rhs => rw [parseStrBody.eq_def]
        conv_lhs => rw [parseStrBody.eq_def]
        simp only [if_neg hq, if_neg hb, if_neg h32]
        rw [ih cs hcs]
        cases hps : parseStrBody cs <;> simp [hps]


theorem jsonWs_ne_of {c : Char} (h : jsonWs c = true) (d : Char)
    (hd : jsonWs d = false) : ¬(c = d) := by
  intro he
  rw [he, hd] at h
  exact Bool.noConfusion h

theorem parseIntPart_ws_none {c : Char} (hc : jsonWs c = true) (cs : List Char) :
    parseIntPart (c :: cs) = none := by
  have h0 : ¬(c = '0') := jsonWs_ne_of hc '0' (by decide)
  have hd : Char.isDigit c = false := jsonWs_not_digit hc
  simp [parseIntPart, h0, List.takeWhile_cons, hd]

theorem parseIntPart_append_ws {w : List Char} (hw : ∀ c ∈ w, jsonWs c = true)
    (s : List Char) :
    parseIntPart (s ++ w) = (parseIntPart s).map (fun pr => (pr.1, pr.2 ++ w)) := by
  cases s with
  | nil =>
    simp only [List.nil_append]
    cases w with
    | nil => rfl
    | cons c cs =>
      rw [parseIntPart_ws_none (hw c (by simp)) cs]
      rfl
  | cons c cs =>
    by_cases h0 : c = '0'
    · subst h0
      simp [parseIntPart]
    · have hTD := isDigit_takeWhile_ws_append hw (c :: cs)
      simp only [List.cons_append] at hTD
      simp only [List.cons_append, parseIntPart, if_neg h0]
      rw [hTD.1, hTD.2]
      by_cases hds : ((c :: cs).takeWhile Char.isDigit).isEmpty <;> simp [hds]

theorem parseFracPart_append_ws {w : List Char} (hw : ∀ c ∈ w, jsonWs c = true)
    (s : List Char) :
    parseFracPart (s ++ w) = (parseFracPart s).map (fun pr => (pr.1, pr.2 ++ w)) := by
  cases s with
  | nil =>
    simp only [List.nil_append]
    cases w with
    | nil => rfl
    | cons c cs =>
      have hdot : ¬(c = '.') := jsonWs_ne_of (hw c (by simp)) '.' (by decide)
      simp [parseFracPart, hdot]
  | cons c cs =>
    by_cases hdot : c = '.'
    · subst hdot
      have hTD := isDigit_takeWhile_ws_append hw cs
      simp only [List.cons_append, parseFracPart]
      rw [hTD.1, hTD.2]
      by_cases hds : (cs.takeWhile Char.isDigit).isEmpty <;> simp [hds]
    · simp [parseFracPart, hdot]

theorem parseExpPart_none_tail (c : Char) (he : c = 'e' ∨ c = 'E') :
    parseExpPart [c] = none := by
  rcases he with he | he <;> subst he <;> simp [parseExpPart]

theorem parseExpPart_plus (c : Char) (he : c = 'e' ∨ c = 'E') (r : List Char) :
    parseExpPart (c :: '+' :: r)
      = (if (r.takeWhile Char.isDigit).isEmpty then none
         else some (c :: '+' :: r.takeWhile Char.isDigit, r.dropWhile Char.isDigit)) := by
  rcases he with he | he <;> subst he <;> simp [parseExpPart]

theorem parseExpPart_minus (c : Char) (he : c = 'e' ∨ c = 'E') (r : List Char) :
    parseExpPart (c :: '-' :: r)
      = (if (r.takeWhile Char.isDigit).isEmpty then none
         else some (c :: '-' :: r.takeWhile Char.isDigit, r.dropWhile Char.isDigit)) := by
  rcases he with he | he <;> subst he <;> simp [parseExpPart]

theorem parseExpPart_nosign (c : Char) (he : c = 'e' ∨ c = 'E') {d : Char}
    (hdp : ¬(d = '+')) (hdm : ¬(d = '-')) (r : List Char) :
    parseExpPart (c :: d :: r)
      = (if ((d :: r).takeWhile Char.isDigit).isEmpty then none
         else some (c :: (d :: r).takeWhile Char.isDigit, (d :: r).dropWhile Char.isDigit)) := by
  rcases he with he | he <;> subst he <;> simp [parseExpPart, hdp, hdm]

theorem parseExpPart_append_ws {w : List Char} (hw : ∀ c ∈ w, jsonWs c = true)
    (s : List Char) :
    parseExpPart (s ++ w) = (parseExpPart s).map (fun pr => (pr.1, pr.2 ++ w)) := by
  cases s with
  | nil =>
    simp only [List.nil_append]
    cases w with
    | nil => rfl
    | cons c cs =>
      have hc := hw c (by simp)
      have he : ¬(c = 'e' ∨ c = 'E') := by
        rcases jsonWs_char_cases hc with h | h | h | h <;> subst h <;> decide
      simp [parseExpPart, he]
  | cons c cs =>
    by_cases he : c = 'e' ∨ c = 'E'
    · cases cs with
      | nil =>
        simp only [List.cons_append, List.nil_append]
        cases w with
        | nil =>
          cases hx : parseExpPart [c] <;> simp [hx]
        | cons d w' =>
          have hdws := hw d (by simp)
          have hdp : ¬(d = '+') := jsonWs_ne_of hdws '+' (by decide)
          have hdm : ¬(d = '-') := jsonWs_ne_of hdws '-' (by decide)
          have hdd : Char.isDigit d = false := jsonWs_not_digit hdws
          rw [parseExpPart_nosign c he hdp hdm w', parseExpPart_none_tail c he]
          simp [List.takeWhile_cons, hdd]
      | cons d r' =>
        by_cases hdp : d = '+'
        · subst hdp
          have hTD := isDigit_takeWhile_ws_append hw r'
          simp only [List.cons_append]
          rw [parseExpPart_plus c he (r' ++ w), parseExpPart_plus c he r']
          rw [hTD.1, hTD.2]
          by_cases hds : (r'.takeWhile Char.isDigit).isEmpty <;> simp [hds]
        · by_cases hdm : d = '-'
          · subst hdm
            have hTD := isDigit_takeWhile_ws_append hw r'
            simp only [List.cons_append]
            rw [parseExpPart_minus c he (r' ++ w), parseExpPart_minus c he r']
            rw [hTD.1, hTD.2]
            by_cases hds : (r'.takeWhile Char.isDigit).isEmpty <;> simp [hds]
          · have hTD := isDigit_takeWhile_ws_append hw (d :: r')
            simp only [List.cons_append] at hTD
            simp only [List.cons_append]
            rw [parseExpPart_nosign c he hdp hdm (r' ++ w),
              parseExpPart_nosign c he hdp hdm r']
            rw [show d :: (r' ++ w) = (d :: r') ++ w from rfl] at *
            rw [hTD.1, hTD.2]
            by_cases hds : ((d :: r').takeWhile Char.isDigit).isEmpty <;> simp [hds]
    · simp [parseExpPart, he]

theorem parseNum_minus (r : List Char) :
    parseNum ('-' :: r)
      = (match parseIntPart r with
         | none => none
         | some (ip, s₂) =>
           match parseFracPart s₂ with
           | none => none
           | some (fp, s₃) =>
             match parseExpPart s₃ with
             | none => none
             | some (ep, s₄) => some (.num (['-'] ++ ip ++ fp ++ ep), s₄)) := by
  simp [parseNum]

theorem parseNum_nosign {c : Char} (hm : ¬(c = '-')) (r : List Char) :
    parseNum (c :: r)
      = (match parseIntPart (c :: r) with
         | none => none
         | some (ip, s₂) =>
           match parseFracPart s₂ with
           | none => none
           | some (fp, s₃) =>
             match parseExpPart s₃ with
             | none => none
             | some (ep, s₄) => some (.num (ip ++ fp ++ ep), s₄)) := by
  simp [parseNum, hm]

theorem parseNum_append_ws {w : List Char} (hw : ∀ c ∈ w, jsonWs c = true)
    (s : List Char) :
    parseNum (s ++ w) = (parseNum s).map (fun pr => (pr.1, pr.2 ++ w)) := by
  cases s with
  | nil =>
    simp only [List.nil_append]
    cases w with
    | nil => rfl
    | cons c cs =>
      have hm : ¬(c = '-') := jsonWs_ne_of (hw c (by simp)) '-' (by decide)
      rw [parseNum_nosign hm cs, parseIntPart_ws_none (hw c (by simp)) cs]
      rfl
  | cons c cs =>
    by_cases hm : c = '-'
    · subst hm
      simp only [List.cons_append]
      rw [parseNum_minus (cs ++ w), parseNum_minus cs]
      rw [parseIntPart_append_ws hw cs]
      cases hip : parseIntPart cs with
      | none => rfl
      | some ipr =>
        obtain ⟨ip, s₂⟩ := ipr
        simp only [Option.map_some']
        rw [parseFracPart_append_ws hw s₂]
        cases hfp : parseFracPart s₂ with
        | none => rfl
        | some fpr =>
          obtain ⟨fp, s₃⟩ := fpr
          simp only [Option.map_some']
          rw [parseExpPart_append_ws hw s₃]
          cases hep : parseExpPart s₃ with
          | none => rfl
          | some epr => rfl
    · simp only [List.cons_append]
      rw [parseNum_nosign hm (cs ++ w), parseNum_nosign hm cs]
      rw [show (c :: (cs ++ w)) = ((c :: cs) ++ w) from rfl]
      rw [parseIntPart_append_ws hw (c :: cs)]
      cases hip : parseIntPart (c :: cs) with
      | none => rfl
      | some ipr =>
        obtain ⟨ip, s₂⟩ := ipr
        simp only [Option.map_some']
        rw [parseFracPart_append_ws hw s₂]
        cases hfp : parseFracPart s₂ with
        | none => rfl
        | some fpr =>
          obtain ⟨fp, s₃⟩ := fpr
          simp only [Option.map_some']
          rw [parseExpPart_append_ws hw s₃]
          cases hep : parseExpPart s₃ with
          | none => rfl
          | some epr => rfl



theorem parseVal_succ (n : Nat) (c : Char) (r : List Char) :
    parseVal (n + 1) (c :: r)
      = (if c = '\x7b' then
           match parseMembersStart n r with
           | some (kvs, r') => some (.obj kvs, r')
           | none => none
         else if c = '[' then
           match parseItemsStart n r with
           | some (vs, r') => some (.arr vs, r')
           | none => none
         else if c = '"' then
           match parseStrBody r with
           | some (cs, r') => some (.str cs, r')
           | none => none
         else if c = 't' then
           match r with
           | r1 :: r2 :: r3 :: r' =>
             if r1 = 'r' ∧ r2 = 'u' ∧ r3 = 'e' then some (.bool true, r') else none
           | _ => none
         else if c = 'f' then
           match r with
           | r1 :: r2 :: r3 :: r4 :: r' =>
             if r1 = 'a' ∧ r2 = 'l' ∧ r3 = 's' ∧ r4 = 'e' then some (.bool false, r')
             else none
           | _ => none
         else if c = 'n' then
           match r with
           | r1 :: r2 :: r3 :: r' =>
             if r1 = 'u' ∧ r2 = 'l' ∧ r3 = 'l' then some (.null, r') else none
           | _ => none
         else parseNum (c :: r)) := rfl

theorem parseItemsStart_succ (n : Nat) (s : List Char) :
    parseItemsStart (n + 1) s
      = (match skipWs s with
         | [] => none
         | c :: r =>
           if c = ']' then some ([], r)
           else
             match parseVal n (c :: r) with
             | none => none
             | some (v, r₂) =>
               match parseItemsRest n r₂ with
               | none => none
               | some (vs, r') => some (v :: vs, r')) := rfl

theorem parseItemsRest_succ (n : Nat) (s : List Char) :
    parseItemsRest (n + 1) s
      = (match skipWs s with
         | [] => none
         | c :: r =>
           if c = ']' then some ([], r)
           else if c = ',' then
             match parseVal n (skipWs r) with
             | none => none
             | some (v, r₂) =>
               match parseItemsRest n r₂ with
               | none => none
               | some (vs, r') => some (v :: vs, r')
           else none) := rfl

theorem parseMembersStart_succ (n : Nat) (s : List Char) :
    parseMembersStart (n + 1) s
      = (match skipWs s with
         | [] => none
         | c :: r =>
           if c = '\x7d' then some ([], r)
           else if c = '"' then
             match parseMemberPair (parseVal n) r with
             | none => none
             | some (kv, r₄) =>
               match parseMembersRest n r₄ with
               | none => none
               | some (kvs, r') => some (kv :: kvs, r')
           else none) := rfl

theorem parseMembersRest_succ (n : Nat) (s : List Char) :
    parseMembersRest (n + 1) s
      = (match skipWs s with
         | [] => none
         | c :: r =>
           if c = '\x7d' then some ([], r)
           else if c = ',' then
             match skipWs r with
             | [] => none
             | c₁ :: r₁ =>
               if c₁ = '"' then
                 match parseMemberPair (parseVal n) r₁ with
                 | none => none
                 | some (kv, r₄) =>
                   match parseMembersRest n r₄ with
                   | none => none
                   | some (kvs, r') => some (kv :: kvs, r')
               else none
           else none) := rfl

theorem parseVal_ws_head {c : Char} (hc : jsonWs c = true) (f : Nat) (r : List Char) :
    parseVal f (c :: r) = none := by
  cases f with
  | zero => rfl
  | succ n =>
    have hm : ¬(c = '-') := jsonWs_ne_of hc '-' (by decide)
    have h1 : ¬(c = '\x7b') := jsonWs_ne_of hc '\x7b' (by decide)
    have h2 : ¬(c = '[') := jsonWs_ne_of hc '[' (by decide)
    have h3 : ¬(c = '"') := jsonWs_ne_of hc '"' (by decide)
    have h4 : ¬(c = 't') := jsonWs_ne_of hc 't' (by decide)
    have h5 : ¬(c = 'f') := jsonWs_ne_of hc 'f' (by decide)
    have h6 : ¬(c = 'n') := jsonWs_ne_of hc 'n' (by decide)
    rw [parseVal_succ n c r]
    simp only [if_neg h1, if_neg h2, if_neg h3, if_neg h4, if_neg h5, if_neg h6]
    rw [parseNum_nosign hm r, parseIntPart_ws_none hc r]

theorem parseMemberPair_append_ws {w : List Char} (hw : ∀ c ∈ w, jsonWs c = true)
    (pv : List Char → Option (Json × List Char))
    (hpvnil : pv [] = none)
    (hpv : ∀ s, pv (s ++ w) = (pv s).map (fun pr => (pr.1, pr.2 ++ w)))
    (r : List Char) :
    parseMemberPair pv (r ++ w)
      = (parseMemberPair pv r).map (fun pr => (pr.1, pr.2 ++ w)) := by
  unfold parseMemberPair
  rw [parseStrBody_append_ws hw r.length r (Nat.le_refl _)]
  cases hsb : parseStrBody r with
  | none => rfl
  | some kr =>
    obtain ⟨k, r₂⟩ := kr
    simp only [Option.map_some']
    rw [skipWs_append]
    by_cases hse : (skipWs r₂).isEmpty
    · rw [if_pos hse, skipWs_all_ws hw,
        show skipWs r₂ = [] from List.isEmpty_iff.mp hse]
      rfl
    · rw [if_neg hse]
      cases hsk : skipWs r₂ with
      | nil => exact absurd (by rw [hsk]; rfl) hse
      | cons c₂ r₃ =>
        simp only [List.cons_append]
        by_cases hc : c₂ = ':'
        · simp only [if_pos hc]
          rw [skipWs_append]
          by_cases hse3 : (skipWs r₃).isEmpty
          · rw [if_pos hse3, skipWs_all_ws hw,
              show skipWs r₃ = [] from List.isEmpty_iff.mp hse3, hpvnil]
            rfl
          · rw [if_neg hse3, hpv (skipWs r₃)]
            cases hv : pv (skipWs r₃) with
            | none => rfl
            | some vr =>
              obtain ⟨v, r₄⟩ := vr
              rfl
        · simp only [if_neg hc]
          rfl

theorem parser_append_ws {w : List Char} (hw : ∀ c ∈ w, jsonWs c = true) :
    ∀ fuel : Nat,
    (∀ s, parseVal fuel (s ++ w)
        = (parseVal fuel s).map (fun pr => (pr.1, pr.2 ++ w)))
    ∧ (∀ s, parseItemsStart fuel (s ++ w)
        = (parseItemsStart fuel s).map (fun pr => (pr.1, pr.2 ++ w)))
    ∧ (∀ s, parseItemsRest fuel (s ++ w)
        = (parseItemsRest fuel s).map (fun pr => (pr.1, pr.2 ++ w)))
    ∧ (∀ s, parseMembersStart fuel (s ++ w)
        = (parseMembersStart fuel s).map (fun pr => (pr.1, pr.2 ++ w)))
    ∧ (∀ s, parseMembersRest fuel (s ++ w)
        = (parseMembersRest fuel s).map (fun pr => (pr.1, pr.2 ++ w))) := by
  intro fuel
  induction fuel with
  | zero =>
    refine ⟨fun s => rfl, fun s => rfl, fun s => rfl, fun s => rfl, fun s => rfl⟩
  | succ n ihn =>
    obtain ⟨ihV, ihIS, ihIR, ihMS, ihMR⟩ := ihn
    have hpair := parseMemberPair_append_ws hw (parseVal n) (parseVal_nil n) ihV
    refine ⟨?_, ?_, ?_, ?_, ?_⟩
    · intro s
      cases s with
      | nil =>
        simp only [List.nil_append, parseVal_nil, Option.map_none']
        cases w with
        | nil => exact parseVal_nil (n + 1)
        | cons c cs => exact parseVal_ws_head (hw c (by simp)) (n + 1) cs
      | cons c cs =>
        simp only [List.cons_append]
        rw [parseVal_succ n c (cs ++ w), parseVal_succ n c cs]
        by_cases h1 : c = '\x7b'
        · simp only [if_pos h1]
          rw [ihMS cs]
          cases hms : parseMembersStart n cs with
          | none => rfl
          | some pr => obtain ⟨kvs, r'⟩ := pr; rfl
        by_cases h2 : c = '['
        · simp only [if_neg h1, if_pos h2]
          rw [ihIS cs]
          cases his : parseItemsStart n cs with
          | none => rfl
          | some pr => obtain ⟨vs, r'⟩ := pr; rfl
        by_cases h3 : c = '"'
        · simp only [if_neg h1, if_neg h2, if_pos h3]
          rw [parseStrBody_append_ws hw cs.length cs (Nat.le_refl _)]
          cases hsb : parseStrBody cs with
          | none => rfl
          | some pr => obtain ⟨cs', r'⟩ := pr; rfl
        by_cases h4 : c = 't'
        · simp only [if_neg h1, if_neg h2, if_neg h3, if_pos h4]
          rcases cs with _ | ⟨r1, _ | ⟨r2, _ | ⟨r3, r'⟩⟩⟩
          · rcases w with _ | ⟨w1, _ | ⟨w2, _ | ⟨w3, wr⟩⟩⟩
            · rfl
            · rfl
            · rfl
            · have hx : ¬(w1 = 'r' ∧ w2 = 'u' ∧ w3 = 'e') :=
                fun hand => (jsonWs_ne_of (hw w1 (by simp)) 'r' (by decide)) hand.1
              simp [hx]
          · rcases w with _ | ⟨w1, _ | ⟨w2, wr⟩⟩
            · rfl
            · rfl
            · have hx : ¬(r1 = 'r' ∧ w1 = 'u' ∧ w2 = 'e') :=
                fun hand => (jsonWs_ne_of (hw w1 (by simp)) 'u' (by decide)) hand.2.1
              simp [hx]
          · rcases w with _ | ⟨w1, wr⟩
            · rfl
            · have hx : ¬(r1 = 'r' ∧ r2 = 'u' ∧ w1 = 'e') :=
                fun hand => (jsonWs_ne_of (hw w1 (by simp)) 'e' (by decide)) hand.2.2
              simp [hx]
          · by_cases hx : r1 = 'r' ∧ r2 = 'u' ∧ r3 = 'e' <;> simp [hx]
        by_cases h5 : c = 'f'
        · simp only [if_neg h1, if_neg h2, if_neg h3, if_neg h4, if_pos h5]
          rcases cs with _ | ⟨r1, _ | ⟨r2, _ | ⟨r3, _ | ⟨r4, r'⟩⟩⟩⟩
          · rcases w with _ | ⟨w1, _ | ⟨w2, _ | ⟨w3, _ | ⟨w4, wr⟩⟩⟩⟩
            · rfl
            · rfl
            · rfl
            · rfl
            · have hx : ¬(w1 = 'a' ∧ w2 = 'l' ∧ w3 = 's' ∧ w4 = 'e') :=
                fun hand => (jsonWs_ne_of (hw w1 (by simp)) 'a' (by decide)) hand.1
              simp [hx]
          · rcases w with _ | ⟨w1, _ | ⟨w2, _ | ⟨w3, wr⟩⟩⟩
            · rfl
            · rfl
            · rfl
            · have hx : ¬(r1 = 'a' ∧ w1 = 'l' ∧ w2 = 's' ∧ w3 = 'e') :=
                fun hand => (jsonWs_ne_of (hw w1 (by simp)) 'l' (by decide)) hand.2.1
              simp [hx]
          · rcases w with _ | ⟨w1, _ | ⟨w2, wr⟩⟩
            · rfl
            · rfl
            · have hx : ¬(r1 = 'a' ∧ r2 = 'l' ∧ w1 = 's' ∧ w2 = 'e') :=
                fun hand => (jsonWs_ne_of (hw w1 (by simp)) 's' (by decide)) hand.2.2.1
              simp [hx]
          · rcases w with _ | ⟨w1, wr⟩
            · rfl
            · have hx : ¬(r1 = 'a' ∧ r2 = 'l' ∧ r3 = 's' ∧ w1 = 'e') :=
                fun hand => (jsonWs_ne_of (hw w1 (by simp)) 'e' (by decide)) hand.2.2.2
              simp [hx]
          · by_cases hx : r1 = 'a' ∧ r2 = 'l' ∧ r3 = 's' ∧ r4 = 'e' <;> simp [hx]
        by_cases h6 : c = 'n'
        · simp only [if_neg h1, if_neg h2, if_neg h3, if_neg h4, if_neg h5, if_pos h6]
          rcases cs with _ | ⟨r1, _ | ⟨r2, _ | ⟨r3, r'⟩⟩⟩
          · rcases w with _ | ⟨w1, _ | ⟨w2, _ | ⟨w3, wr⟩⟩⟩
            · rfl
            · rfl
            · rfl
            · have hx : ¬(w1 = 'u' ∧ w2 = 'l' ∧ w3 = 'l') :=
                fun hand => (jsonWs_ne_of (hw w1 (by simp)) 'u' (by decide)) hand.1
              simp [hx]
          · rcases w with _ | ⟨w1, _ | ⟨w2, wr⟩⟩
            · rfl
            · rfl
            · have hx : ¬(r1 = 'u' ∧ w1 = 'l' ∧ w2 = 'l') :=
                fun hand => (jsonWs_ne_of (hw w1 (by simp)) 'l' (by decide)) hand.2.1
              simp [hx]
          · rcases w with _ | ⟨w1, wr⟩
            · rfl
            · have hx : ¬(r1 = 'u' ∧ r2 = 'l' ∧ w1 = 'l') :=
                fun hand => (jsonWs_ne_of (hw w1 (by simp)) 'l' (by decide)) hand.2.2
              simp [hx]
          · by_cases hx : r1 = 'u' ∧ r2 = 'l' ∧ r3 = 'l' <;> simp [hx]
        · simp only [if_neg h1, if_neg h2, if_neg h3, if_neg h4, if_neg h5, if_neg h6]
          rw [show c :: (cs ++ w) = (c :: cs) ++ w from rfl,
            parseNum_append_ws hw (c :: cs)]
    · intro s
      rw [parseItemsStart_succ n (s ++ w), parseItemsStart_succ n s]
      rw [skipWs_append]
      by_cases hse : (skipWs s).isEmpty
      · rw [if_pos hse, skipWs_all_ws hw,
          show skipWs s = [] from List.isEmpty_iff.mp hse]
        rfl
      · rw [if_neg hse]
        cases hsk : skipWs s with
        | nil => exact absurd (by rw [hsk]; rfl) hse
        | cons c r =>
          simp only [List.cons_append]
          by_cases hc : c = ']'
          · simp only [if_pos hc]
            rfl
          · simp only [if_neg hc]
            rw [show c :: (r ++ w) = (c :: r) ++ w from rfl, ihV (c :: r)]
            cases hv : parseVal n (c :: r) with
            | none => rfl
            | some vr =>
              obtain ⟨v, r₂⟩ := vr
              simp only [Option.map_some']
              rw [ihIR r₂]
              cases hir : parseItemsRest n r₂ with
              | none => rfl
              | some pr => obtain ⟨vs, r'⟩ := pr; rfl
    · intro s
      rw [parseItemsRest_succ n (s ++ w), parseItemsRest_succ n s]
      rw [skipWs_append]
      by_cases hse : (skipWs s).isEmpty
      · rw [if_pos hse, skipWs_all_ws hw,
          show skipWs s = [] from List.isEmpty_iff.mp hse]
        rfl
      · rw [if_neg hse]
        cases hsk : skipWs s with
        | nil => exact absurd (by rw [hsk]; rfl) hse
        | cons c r =>
          simp only [List.cons_append]
          by_cases hc : c = ']'
          · simp only [if_pos hc]
            rfl
          · by_cases hcm : c = ','
            · simp only [if_neg hc, if_pos hcm]
              rw [skipWs_append]
              by_cases hse2 : (skipWs r).isEmpty
              · rw [if_pos hse2, skipWs_all_ws hw,
                  show skipWs r = [] from List.isEmpty_iff.mp hse2, parseVal_nil]
                rfl
              · rw [if_neg hse2, ihV (skipWs r)]
                cases hv : parseVal n (skipWs r) with
                | none => rfl
                | some vr =>
                  obtain ⟨v, r₂⟩ := vr
                  simp only [Option.map_some']
                  rw [ihIR r₂]
                  cases hir : parseItemsRest n r₂ with
                  | none => rfl
                  | some pr => obtain ⟨vs, r'⟩ := pr; rfl
            · simp only [if_neg hc, if_neg hcm]
              rfl
    · intro s
      rw [parseMembersStart_succ n (s ++ w), parseMembersStart_succ n s]
      rw [skipWs_append]
      by_cases hse : (skipWs s).isEmpty
      · rw [if_pos hse, skipWs_all_ws hw,
          show skipWs s = [] from List.isEmpty_iff.mp hse]
        rfl
      · rw [if_neg hse]
        cases hsk : skipWs s with
        | nil => exact absurd (by rw [hsk]; rfl) hse
        | cons c r =>
          simp only [List.cons_append]
          by_cases hc : c = '\x7d'
          · simp only [if_pos hc]
            rfl
          · by_cases hcq : c = '"'
            · simp only [if_neg hc, if_pos hcq]
              rw [hpair r]
              cases hp : parseMemberPair (parseVal n) r with
              | none => rfl
              | some kvr =>
                obtain ⟨kv, r₄⟩ := kvr
                simp only [Option.map_some']
                rw [ihMR r₄]
                cases hmr : parseMembersRest n r₄ with
                | none => rfl
                | some pr => obtain ⟨kvs, r'⟩ := pr; rfl
            · simp only [if_neg hc, if_neg hcq]
              rfl
    · intro s
      rw [parseMembersRest_succ n (s ++ w), parseMembersRest_succ n s]
      rw [skipWs_append]
      by_cases hse : (skipWs s).isEmpty
      · rw [if_pos hse, skipWs_all_ws hw,
          show skipWs s = [] from List.isEmpty_iff.mp hse]
        rfl
      · rw [if_neg hse]
        cases hsk : skipWs s with
        | nil => exact absurd (by rw [hsk]; rfl) hse
        | cons c r =>
          simp only [List.cons_append]
          by_cases hc : c = '\x7d'
          · simp only [if_pos hc]
            rfl
          · by_cases hcm : c = ','
            · simp only [if_neg hc, if_pos hcm]
              rw [skipWs_append]
              by_cases hse2 : (skipWs r).isEmpty
              · rw [if_pos hse2, skipWs_all_ws hw,
                  show skipWs r = [] from List.isEmpty_iff.mp hse2]
                rfl
              · rw [if_neg hse2]
                cases hsk2 : skipWs r with
                | nil => exact absurd (by rw [hsk2]; rfl) hse2
                | cons c₁ r₁ =>
                  simp only [List.cons_append]
                  by_cases hcq : c₁ = '"'
                  · simp only [if_pos hcq]
                    rw [hpair r₁]
                    cases hp : parseMemberPair (parseVal n) r₁ with
                    | none => rfl
                    | some kvr =>
                      obtain ⟨kv, r₄⟩ := kvr
                      simp only [Option.map_some']
                      rw [ihMR r₄]
                      cases hmr : parseMembersRest n r₄ with
                      | none => rfl
                      | some pr => obtain ⟨kvs, r'⟩ := pr; rfl
                  · simp only [if_neg hcq]
                    rfl
            · simp only [if_neg hc, if_neg hcm]
              rfl


theorem jsWhite_mem {c : Char} (h : jsWhite c = true) : c ∈ jsWhiteChars := by
  simpa [jsWhite] using h

theorem isDigit_not_jsWhite {c : Char} (h : Char.isDigit c = true) :
    jsWhite c = false := by
  by_contra hcon
  rw [Bool.not_eq_false] at hcon
  have hm := jsWhite_mem hcon
  fin_cases hm <;> simp_all

/-
Reduction helpers and the consumed-shape lemma for string bodies: a
successful parse consumed everything up to a closing quote.
-/

theorem parseStrBody_u (a b c3 d : Char) (rest : List Char) :
    parseStrBody ('\\' :: 'u' :: a :: b :: c3 :: d :: rest)
      = (match hexVal a, hexVal b, hexVal c3, hexVal d with
         | some x1, some x2, some x3, some x4 =>
           (match parseStrBody rest with
            | some (r0, rest') =>
              some (Char.ofNat (((x1 * 16 + x2) * 16 + x3) * 16 + x4) :: r0, rest')
            | none => none)
         | _, _, _, _ => none) := by
  rw [parseStrBody.eq_def]
  rfl

theorem parseStrBody_esc {e : Char} (hu : ¬(e = 'u')) (cs' : List Char) :
    parseStrBody ('\\' :: e :: cs')
      = (match escChar e with
         | some d =>
           (match parseStrBody cs' with
            | some (r0, rest') => some (d :: r0, rest')
            | none => none)
         | none => none) := by
  rw [parseStrBody.eq_def]
  simp [hu]

theorem parseStrBody_plain {c : Char} (hq : ¬(c = '"')) (hb : ¬(c = '\\'))
    (h32 : ¬(c.toNat < 32)) (cs : List Char) :
    parseStrBody (c :: cs)
      = (match parseStrBody cs with
         | some (r0, rest') => some (c :: r0, rest')
         | none => none) := by
  rw [parseStrBody.eq_def]
  simp [hq, hb, h32]

theorem parseStrBody_consumed : ∀ (n : Nat) (s o r : List Char),
    s.length ≤ n → parseStrBody s = some (o, r) → ∃ t, s = t ++ '"' :: r := by
  intro n
  induction n with
  | zero =>
    intro s o r hlen hp
    have hs : s = [] := List.eq_nil_of_length_eq_zero (Nat.le_zero.mp hlen)
    subst hs
    exact absurd hp (by simp [parseStrBody])
  | succ n ih =>
    intro s o r hlen hp
    cases s with
    | nil => exact absurd hp (by simp [parseStrBody])
    | cons c cs =>
      by_cases hq : c = '"'
      · subst hq
        rw [parseStrBody.eq_def] at hp
        simp at hp
        exact ⟨[], by rw [hp.2]; rfl⟩
      by_cases hb : c = '\\'
      · subst hb
        cases cs with
        | nil => exact absurd hp (by rw [parseStrBody.eq_def]; simp)
        | cons e cs' =>
          by_cases hu : e = 'u'
          · subst hu
            rcases cs' with _ | ⟨a, _ | ⟨b, _ | ⟨c3, _ | ⟨d, rest⟩⟩⟩⟩
            · exact absurd hp (by rw [parseStrBody.eq_def]; simp)
            · exact absurd hp (by rw [parseStrBody.eq_def]; simp)
            · exact absurd hp (by rw [parseStrBody.eq_def]; simp)
            · exact absurd hp (by rw [parseStrBody.eq_def]; simp)
            · rw [parseStrBody_u a b c3 d rest] at hp
              cases hha : hexVal a with
              | none => rw [hha] at hp; exact absurd hp (by simp)
              | some x1 =>
              rw [hha] at hp
              cases hhb : hexVal b with
              | none => rw [hhb] at hp; exact absurd hp (by simp)
              | some x2 =>
              rw [hhb] at hp
              cases hhc : hexVal c3 with
              | none => rw [hhc] at hp; exact absurd hp (by simp)
              | some x3 =>
              rw [hhc] at hp
              cases hhd : hexVal d with
              | none => rw [hhd] at hp; exact absurd hp (by simp)
              | some x4 =>
              rw [hhd] at hp
              cases hps : parseStrBody rest with
              | none => rw [hps] at hp; exact absurd hp (by simp)
              | some pr =>
                obtain ⟨o', r'⟩ := pr
                rw [hps] at hp
                simp only [Option.some.injEq, Prod.mk.injEq] at hp
                obtain ⟨t, ht⟩ := ih rest o' r' (by simp at hlen; omega)
                  (by rw [hps, hp.2])
                refine ⟨'\\' :: 'u' :: a :: b :: c3 :: d :: t, ?_⟩
                rw [show rest = t ++ '"' :: r from by rw [hp.2] at ht; exact ht]
                rfl
          · rw [parseStrBody_esc hu cs'] at hp
            cases hesc : escChar e with
            | none => rw [hesc] at hp; exact absurd hp (by simp)
            | some d =>
              rw [hesc] at hp
              cases hps : parseStrBody cs' with
              | none => rw [hps] at hp; exact absurd hp (by simp)
              | some pr =>
                obtain ⟨o', r'⟩ := pr
                rw [hps] at hp
                simp only [Option.some.injEq, Prod.mk.injEq] at hp
                obtain ⟨t, ht⟩ := ih cs' o' r' (by simp at hlen; omega)
                  (by rw [hps, hp.2])
                refine ⟨'\\' :: e :: t, ?_⟩
                rw [show cs' = t ++ '"' :: r from by rw [hp.2] at ht; exact ht]
                rfl
      by_cases h32 : c.toNat < 32
      · rw [parseStrBody.eq_def] at hp
        simp [hq, hb, h32] at hp
      · rw [parseStrBody_plain hq hb h32 cs] at hp
        cases hps : parseStrBody cs with
        | none => rw [hps] at hp; exact absurd hp (by simp)
        | some pr =>
          obtain ⟨o', r'⟩ := pr
          rw [hps] at hp
          simp only [Option.some.injEq, Prod.mk.injEq] at hp
          obtain ⟨t, ht⟩ := ih cs o' r' (by simp at hlen; omega)
            (by rw [hps, hp.2])
          refine ⟨c :: t, ?_⟩
          rw [show cs = t ++ '"' :: r from by rw [hp.2] at ht; exact ht]
          rfl


theorem skipWs_decomp (s : List Char) :
    ∃ w, s = w ++ skipWs s ∧ ∀ c ∈ w, jsonWs c = true := by
  refine ⟨s.takeWhile jsonWs, ?_, ?_⟩
  · conv_lhs => rw [← List.takeWhile_append_dropWhile (p := jsonWs) (l := s)]
    rfl
  · intro c hc
    exact List.mem_takeWhile_imp hc

theorem parseIntPart_consumed {s ip r : List Char}
    (hp : parseIntPart s = some (ip, r)) :
    ∃ t c, s = t ++ c :: r ∧ Char.isDigit c = true := by
  cases s with
  | nil => exact absurd hp (by simp [parseIntPart])
  | cons c cs =>
    by_cases h0 : c = '0'
    · subst h0
      rw [show parseIntPart ('0' :: cs) = some (['0'], cs) from by
        simp [parseIntPart]] at hp
      simp only [Option.some.injEq, Prod.mk.injEq] at hp
      exact ⟨[], '0', by rw [← hp.2]; rfl, by decide⟩
    · simp only [parseIntPart, if_neg h0] at hp
      by_cases hds : ((c :: cs).takeWhile Char.isDigit).isEmpty
      · rw [if_pos hds] at hp
        exact absurd hp (by simp)
      · rw [if_neg hds] at hp
        simp only [Option.some.injEq, Prod.mk.injEq] at hp
        have hsplit : (c :: cs).takeWhile Char.isDigit
            ++ (c :: cs).dropWhile Char.isDigit = c :: cs :=
          List.takeWhile_append_dropWhile Char.isDigit (c :: cs)
        have hne : (c :: cs).takeWhile Char.isDigit ≠ [] := by
          intro h0'
          rw [h0'] at hds
          exact hds rfl
        rcases List.eq_nil_or_concat ((c :: cs).takeWhile Char.isDigit)
          with h | ⟨t, b, htb⟩
        · exact absurd h hne
        · refine ⟨t, b, ?_, ?_⟩
          · rw [← hp.2]
            conv_lhs => rw [← hsplit]
            rw [htb]
            simp
          · have hbmem : b ∈ (c :: cs).takeWhile Char.isDigit := by
              rw [htb]
              simp
            exact List.mem_takeWhile_imp hbmem

theorem parseFracPart_consumed {s fp r : List Char}
    (hp : parseFracPart s = some (fp, r)) :
    (fp = [] ∧ r = s) ∨ ∃ t c, s = t ++ c :: r ∧ Char.isDigit c = true := by
  cases s with
  | nil =>
    left
    rw [show parseFracPart [] = some ([], []) from rfl] at hp
    simp only [Option.some.injEq, Prod.mk.injEq] at hp
    exact ⟨hp.1.symm, hp.2.symm⟩
  | cons c cs =>
    by_cases hdot : c = '.'
    · subst hdot
      right
      rw [show parseFracPart ('.' :: cs)
          = (if (cs.takeWhile Char.isDigit).isEmpty then none
             else some ('.' :: cs.takeWhile Char.isDigit,
               cs.dropWhile Char.isDigit)) from rfl] at hp
      by_cases hds : (cs.takeWhile Char.isDigit).isEmpty
      · rw [if_pos hds] at hp
        exact absurd hp (by simp)
      · rw [if_neg hds] at hp
        simp only [Option.some.injEq, Prod.mk.injEq] at hp
        have hsplit : cs.takeWhile Char.isDigit ++ cs.dropWhile Char.isDigit = cs :=
          List.takeWhile_append_dropWhile Char.isDigit cs
        have hne : cs.takeWhile Char.isDigit ≠ [] := by
          intro h0'
          rw [h0'] at hds
          exact hds rfl
        rcases List.eq_nil_or_concat (cs.takeWhile Char.isDigit) with h | ⟨t, b, htb⟩
        · exact absurd h hne
        · refine ⟨'.' :: t, b, ?_, ?_⟩
          · rw [← hp.2]
            conv_lhs => rw [show cs = cs.takeWhile Char.isDigit ++ cs.dropWhile Char.isDigit from hsplit.symm]
            rw [htb]
            simp
          · have hbmem : b ∈ cs.takeWhile Char.isDigit := by
              rw [htb]
              simp
            exact List.mem_takeWhile_imp hbmem
    · left
      simp only [parseFracPart, if_neg hdot, Option.some.injEq, Prod.mk.injEq] at hp
      exact ⟨hp.1.symm, hp.2.symm⟩

theorem parseExpPart_consumed {s ep r : List Char}
    (hp : parseExpPart s = some (ep, r)) :
    (ep = [] ∧ r = s) ∨ ∃ t c, s = t ++ c :: r ∧ Char.isDigit c = true := by
  cases s with
  | nil =>
    left
    rw [show parseExpPart [] = some ([], []) from rfl] at hp
    simp only [Option.some.injEq, Prod.mk.injEq] at hp
    exact ⟨hp.1.symm, hp.2.symm⟩
  | cons c cs =>
    by_cases he : c = 'e' ∨ c = 'E'
    · cases cs with
      | nil => rw [parseExpPart_none_tail c he] at hp; exact absurd hp (by simp)
      | cons d r' =>
        right
        have main : ∀ (pre : List Char) (body : List Char),
            (if (body.takeWhile Char.isDigit).isEmpty then none
             else some (c :: pre ++ body.takeWhile Char.isDigit,
               body.dropWhile Char.isDigit)) = some (ep, r) →
            c :: pre ++ body = c :: pre ++ body →
            ∃ t b, c :: pre ++ body = t ++ b :: r ∧ Char.isDigit b = true := by
          intro pre body hbody _
          by_cases hds : (body.takeWhile Char.isDigit).isEmpty
          · rw [if_pos hds] at hbody
            exact absurd hbody (by simp)
          · rw [if_neg hds] at hbody
            simp only [Option.some.injEq, Prod.mk.injEq] at hbody
            have hsplit : body.takeWhile Char.isDigit
                ++ body.dropWhile Char.isDigit = body :=
              List.takeWhile_append_dropWhile Char.isDigit body
            have hne : body.takeWhile Char.isDigit ≠ [] := by
              intro h0'
              rw [h0'] at hds
              exact hds rfl
            rcases List.eq_nil_or_concat (body.takeWhile Char.isDigit)
              with h | ⟨t, b, htb⟩
            · exact absurd h hne
            · refine ⟨c :: pre ++ t, b, ?_, ?_⟩
              · rw [← hbody.2]
                conv_lhs => rw [show body = body.takeWhile Char.isDigit ++ body.dropWhile Char.isDigit from hsplit.symm]
                rw [htb]
                simp
              · have hbmem : b ∈ body.takeWhile Char.isDigit := by
                  rw [htb]
                  simp
                exact List.mem_takeWhile_imp hbmem
        by_cases hdp : d = '+'
        · subst hdp
          rw [parseExpPart_plus c he r'] at hp
          have := main ['+'] r' (by simpa using hp) rfl
          simpa using this
        · by_cases hdm : d = '-'
          · subst hdm
            rw [parseExpPart_minus c he r'] at hp
            have := main ['-'] r' (by simpa using hp) rfl
            simpa using this
          · rw [parseExpPart_nosign c he hdp hdm r'] at hp
            have := main [] (d :: r') (by simpa using hp) rfl
            simpa using this
    · left
      simp only [parseExpPart, if_neg he, Option.some.injEq, Prod.mk.injEq] at hp
      exact ⟨hp.1.symm, hp.2.symm⟩

theorem parseNum_consumed {s : List Char} {j : Json} {r : List Char}
    (hp : parseNum s = some (j, r)) :
    ∃ t c, s = t ++ c :: r ∧ jsWhite c = false := by
  have step : ∀ (s₁ : List Char),
      (∃ ip s₂, parseIntPart s₁ = some (ip, s₂)
        ∧ ∃ fp s₃, parseFracPart s₂ = some (fp, s₃)
        ∧ ∃ ep, parseExpPart s₃ = some (ep, r)) →
      ∃ t c, s₁ = t ++ c :: r ∧ Char.isDigit c = true := by
    intro s₁ ⟨ip, s₂, hip, fp, s₃, hfp, ep, hep⟩
    rcases parseExpPart_consumed hep with ⟨_, hr3⟩ | ⟨t₃, c₃, h3, hd3⟩
    · subst hr3
      rcases parseFracPart_consumed hfp with ⟨_, hr2⟩ | ⟨t₂, c₂, h2, hd2⟩
      · subst hr2
        exact parseIntPart_consumed hip
      · obtain ⟨t₁, c₁, h1, hd1⟩ := parseIntPart_consumed hip
        refine ⟨t₁ ++ c₁ :: t₂, c₂, ?_, hd2⟩
        rw [h1, h2]
        simp
    · obtain ⟨t₂, hfp2⟩ : ∃ u, s₂ = u ++ s₃ := by
        rcases parseFracPart_consumed hfp with ⟨_, hr2⟩ | ⟨t₂, c₂, h2, _⟩
        · exact ⟨[], by rw [hr2]; rfl⟩
        · exact ⟨t₂ ++ [c₂], by rw [h2]; simp⟩
      obtain ⟨t₁, hip1⟩ : ∃ u, s₁ = u ++ s₂ := by
        obtain ⟨t₁, c₁, h1, _⟩ := parseIntPart_consumed hip
        exact ⟨t₁ ++ [c₁], by rw [h1]; simp⟩
      refine ⟨t₁ ++ t₂ ++ t₃, c₃, ?_, hd3⟩
      rw [hip1, hfp2, h3]
      simp
  cases s with
  | nil => exact absurd hp (by simp [parseNum, parseIntPart])
  | cons c cs =>
    by_cases hm : c = '-'
    · subst hm
      rw [parseNum_minus cs] at hp
      cases hip : parseIntPart cs with
      | none => simp only [hip] at hp; exact absurd hp (by simp)
      | some ipr =>
        obtain ⟨ip, s₂⟩ := ipr
        simp only [hip] at hp
        cases hfp : parseFracPart s₂ with
        | none => simp only [hfp] at hp; exact absurd hp (by simp)
        | some fpr =>
          obtain ⟨fp, s₃⟩ := fpr
          simp only [hfp] at hp
          cases hep : parseExpPart s₃ with
          | none => simp only [hep] at hp; exact absurd hp (by simp)
          | some epr =>
            obtain ⟨ep, s₄⟩ := epr
            simp only [hep, Option.some.injEq, Prod.mk.injEq] at hp
            obtain ⟨t, b, hts, hdb⟩ :=
              step cs ⟨ip, s₂, hip, fp, s₃, hfp, ep, by rw [hep, hp.2]⟩
            exact ⟨'-' :: t, b, by rw [hts]; rfl, isDigit_not_jsWhite hdb⟩
    · rw [parseNum_nosign hm cs] at hp
      cases hip : parseIntPart (c :: cs) with
      | none => simp only [hip] at hp; exact absurd hp (by simp)
      | some ipr =>
        obtain ⟨ip, s₂⟩ := ipr
        simp only [hip] at hp
        cases hfp : parseFracPart s₂ with
        | none => simp only [hfp] at hp; exact absurd hp (by simp)
        | some fpr =>
          obtain ⟨fp, s₃⟩ := fpr
          simp only [hfp] at hp
          cases hep : parseExpPart s₃ with
          | none => simp only [hep] at hp; exact absurd hp (by simp)
          | some epr =>
            obtain ⟨ep, s₄⟩ := epr
            simp only [hep, Option.some.injEq, Prod.mk.injEq] at hp
            obtain ⟨t, b, hts, hdb⟩ :=
              step (c :: cs) ⟨ip, s₂, hip, fp, s₃, hfp, ep, by rw [hep, hp.2]⟩
            exact ⟨t, b, hts, isDigit_not_jsWhite hdb⟩


theorem parseMemberPair_consumed {pv : List Char → Option (Json × List Char)}
    (hpv : ∀ s v r, pv s = some (v, r) → ∃ t c, s = t ++ c :: r ∧ jsWhite c = false)
    {r0 : List Char} {kv : List Char × Json} {r : List Char}
    (hp : parseMemberPair pv r0 = some (kv, r)) :
    ∃ t c, r0 = t ++ c :: r ∧ jsWhite c = false := by
  unfold parseMemberPair at hp
  cases hsb : parseStrBody r0 with
  | none => rw [hsb] at hp; exact absurd hp (by simp)
  | some kr =>
    obtain ⟨k, r₂⟩ := kr
    simp only [hsb] at hp
    obtain ⟨tq, htq⟩ := parseStrBody_consumed r0.length r0 k r₂ (Nat.le_refl _) hsb
    cases hsk : skipWs r₂ with
    | nil => rw [hsk] at hp; exact absurd hp (by simp)
    | cons c₂ r₃ =>
      simp only [hsk] at hp
      by_cases hc : c₂ = ':'
      · rw [if_pos hc] at hp
        cases hv : pv (skipWs r₃) with
        | none => rw [hv] at hp; exact absurd hp (by simp)
        | some vr =>
          obtain ⟨v, r₄⟩ := vr
          simp only [hv, Option.some.injEq, Prod.mk.injEq] at hp
          obtain ⟨tv, cv, htv, hcv⟩ := hpv (skipWs r₃) v r₄ hv
          obtain ⟨w₂, hw₂, _⟩ := skipWs_decomp r₂
          obtain ⟨w₃, hw₃, _⟩ := skipWs_decomp r₃
          refine ⟨tq ++ '"' :: w₂ ++ c₂ :: w₃ ++ tv, cv, ?_, hcv⟩
          rw [htq, hw₂, hsk]
          rw [show r₃ = w₃ ++ skipWs r₃ from hw₃, htv, ← hp.2]
          simp
      · rw [if_neg hc] at hp
        exact absurd hp (by simp)


theorem parser_consumed : ∀ fuel : Nat,
    (∀ s v r, parseVal fuel s = some (v, r) →
      ∃ t c, s = t ++ c :: r ∧ jsWhite c = false)
    ∧ (∀ s vs r, parseItemsStart fuel s = some (vs, r) → ∃ t, s = t ++ ']' :: r)
    ∧ (∀ s vs r, parseItemsRest fuel s = some (vs, r) → ∃ t, s = t ++ ']' :: r)
    ∧ (∀ s kvs r, parseMembersStart fuel s = some (kvs, r) →
        ∃ t, s = t ++ '\x7d' :: r)
    ∧ (∀ s kvs r, parseMembersRest fuel s = some (kvs, r) →
        ∃ t, s = t ++ '\x7d' :: r) := by
  intro fuel
  induction fuel with
  | zero =>
    refine ⟨?_, ?_, ?_, ?_, ?_⟩
    · intro s a r hp
      rw [show parseVal 0 s = none from rfl] at hp
      exact absurd hp (by simp)
    · intro s a r hp
      rw [show parseItemsStart 0 s = none from rfl] at hp
      exact absurd hp (by simp)
    · intro s a r hp
      rw [show parseItemsRest 0 s = none from rfl] at hp
      exact absurd hp (by simp)
    · intro s a r hp
      rw [show parseMembersStart 0 s = none from rfl] at hp
      exact absurd hp (by simp)
    · intro s a r hp
      rw [show parseMembersRest 0 s = none from rfl] at hp
      exact absurd hp (by simp)
  | succ n ihn =>
    obtain ⟨ihV, ihIS, ihIR, ihMS, ihMR⟩ := ihn
    refine ⟨?_, ?_, ?_, ?_, ?_⟩
    · intro s v r hp
      cases s with
      | nil => rw [parseVal_nil] at hp; exact absurd hp (by simp)
      | cons c cs =>
        rw [parseVal_succ n c cs] at hp
        by_cases h1 : c = '\x7b'
        · rw [if_pos h1] at hp
          cases hms : parseMembersStart n cs with
          | none => rw [hms] at hp; exact absurd hp (by simp)
          | some pr =>
            obtain ⟨kvs, r'⟩ := pr
            simp only [hms, Option.some.injEq, Prod.mk.injEq] at hp
            obtain ⟨t, ht⟩ := ihMS cs kvs r' hms
            refine ⟨c :: t, '\x7d', ?_, by decide⟩
            rw [ht, hp.2]
            rfl
        by_cases h2 : c = '['
        · rw [if_neg h1, if_pos h2] at hp
          cases his : parseItemsStart n cs with
          | none => rw [his] at hp; exact absurd hp (by simp)
          | some pr =>
            obtain ⟨vs, r'⟩ := pr
            simp only [his, Option.some.injEq, Prod.mk.injEq] at hp
            obtain ⟨t, ht⟩ := ihIS cs vs r' his
            refine ⟨c :: t, ']', ?_, by decide⟩
            rw [ht, hp.2]
            rfl
        by_cases h3 : c = '"'
        · rw [if_neg h1, if_neg h2, if_pos h3] at hp
          cases hsb : parseStrBody cs with
          | none => rw [hsb] at hp; exact absurd hp (by simp)
          | some pr =>
            obtain ⟨o, r'⟩ := pr
            simp only [hsb, Option.some.injEq, Prod.mk.injEq] at hp
            obtain ⟨t, ht⟩ := parseStrBody_consumed cs.length cs o r' (Nat.le_refl _) hsb
            refine ⟨c :: t, '"', ?_, by decide⟩
            rw [ht, hp.2]
            rfl
        by_cases h4 : c = 't'
        · rw [if_neg h1, if_neg h2, if_neg h3, if_pos h4] at hp
          rcases cs with _ | ⟨r1, _ | ⟨r2, _ | ⟨r3, r'⟩⟩⟩
          · exact absurd hp (by simp)
          · exact absurd hp (by simp)
          · exact absurd hp (by simp)
          · have hp' : (if r1 = 'r' ∧ r2 = 'u' ∧ r3 = 'e'
                then some (Json.bool true, r') else none) = some (v, r) := hp
            by_cases hx : r1 = 'r' ∧ r2 = 'u' ∧ r3 = 'e'
            · rw [if_pos hx] at hp'
              simp only [Option.some.injEq, Prod.mk.injEq] at hp'
              obtain ⟨hx1, hx2, hx3⟩ := hx
              subst hx1
              subst hx2
              subst hx3
              refine ⟨[c, 'r', 'u'], 'e', ?_, by decide⟩
              rw [hp'.2]
              rfl
            · rw [if_neg hx] at hp'
              exact absurd hp' (by simp)
        by_cases h5 : c = 'f'
        · rw [if_neg h1, if_neg h2, if_neg h3, if_neg h4, if_pos h5] at hp
          rcases cs with _ | ⟨r1, _ | ⟨r2, _ | ⟨r3, _ | ⟨r4, r'⟩⟩⟩⟩
          · exact absurd hp (by simp)
          · exact absurd hp (by simp)
          · exact absurd hp (by simp)
          · exact absurd hp (by simp)
          · have hp' : (if r1 = 'a' ∧ r2 = 'l' ∧ r3 = 's' ∧ r4 = 'e'
                then some (Json.bool false, r') else none) = some (v, r) := hp
            by_cases hx : r1 = 'a' ∧ r2 = 'l' ∧ r3 = 's' ∧ r4 = 'e'
            · rw [if_pos hx] at hp'
              simp only [Option.some.injEq, Prod.mk.injEq] at hp'
              obtain ⟨hx1, hx2, hx3, hx4⟩ := hx
              subst hx1
              subst hx2
              subst hx3
              subst hx4
              refine ⟨[c, 'a', 'l', 's'], 'e', ?_, by decide⟩
              rw [hp'.2]
              rfl
            · rw [if_neg hx] at hp'
              exact absurd hp' (by simp)
        by_cases h6 : c = 'n'
        · rw [if_neg h1, if_neg h2, if_neg h3, if_neg h4, if_neg h5, if_pos h6] at hp
          rcases cs with _ | ⟨r1, _ | ⟨r2, _ | ⟨r3, r'⟩⟩⟩
          · exact absurd hp (by simp)
          · exact absurd hp (by simp)
          · exact absurd hp (by simp)
          · have hp' : (if r1 = 'u' ∧ r2 = 'l' ∧ r3 = 'l'
                then some (Json.null, r') else none) = some (v, r) := hp
            by_cases hx : r1 = 'u' ∧ r2 = 'l' ∧ r3 = 'l'
            · rw [if_pos hx] at hp'
              simp only [Option.some.injEq, Prod.mk.injEq] at hp'
              obtain ⟨hx1, hx2, hx3⟩ := hx
              subst hx1
              subst hx2
              subst hx3
              refine ⟨[c, 'u', 'l'], 'l', ?_, by decide⟩
              rw [hp'.2]
              rfl
            · rw [if_neg hx] at hp'
              exact absurd hp' (by simp)
        · rw [if_neg h1, if_neg h2, if_neg h3, if_neg h4, if_neg h5, if_neg h6] at hp
          exact parseNum_consumed hp
    · intro s vs r hp
      rw [parseItemsStart_succ n s] at hp
      obtain ⟨w₀, hw₀, _⟩ := skipWs_decomp s
      cases hsk : skipWs s with
      | nil => rw [hsk] at hp; exact absurd hp (by simp)
      | cons c rh =>
        simp only [hsk] at hp
        by_cases hc : c = ']'
        · rw [if_pos hc] at hp
          simp only [Option.some.injEq, Prod.mk.injEq] at hp
          subst hc
          exact ⟨w₀, by rw [hw₀, hsk, hp.2]⟩
        · rw [if_neg hc] at hp
          cases hv : parseVal n (c :: rh) with
          | none => rw [hv] at hp; exact absurd hp (by simp)
          | some vr =>
            obtain ⟨v, r₂⟩ := vr
            simp only [hv] at hp
            cases hir : parseItemsRest n r₂ with
            | none => rw [hir] at hp; exact absurd hp (by simp)
            | some pr =>
              obtain ⟨vs', r'⟩ := pr
              simp only [hir, Option.some.injEq, Prod.mk.injEq] at hp
              obtain ⟨tV, cV, htV, _⟩ := ihV (c :: rh) v r₂ hv
              obtain ⟨t2, ht2⟩ := ihIR r₂ vs' r' hir
              refine ⟨w₀ ++ tV ++ cV :: t2, ?_⟩
              rw [hw₀, hsk, htV, ht2, hp.2]
              simp
    · intro s vs r hp
      rw [parseItemsRest_succ n s] at hp
      obtain ⟨w₀, hw₀, _⟩ := skipWs_decomp s
      cases hsk : skipWs s with
      | nil => rw [hsk] at hp; exact absurd hp (by simp)
      | cons c rh =>
        simp only [hsk] at hp
        by_cases hc : c = ']'
        · rw [if_pos hc] at hp
          simp only [Option.some.injEq, Prod.mk.injEq] at hp
          subst hc
          exact ⟨w₀, by rw [hw₀, hsk, hp.2]⟩
        · by_cases hcm : c = ','
          · rw [if_neg hc, if_pos hcm] at hp
            cases hv : parseVal n (skipWs rh) with
            | none => rw [hv] at hp; exact absurd hp (by simp)
            | some vr =>
              obtain ⟨v, r₂⟩ := vr
              simp only [hv] at hp
              cases hir : parseItemsRest n r₂ with
              | none => rw [hir] at hp; exact absurd hp (by simp)
              | some pr =>
                obtain ⟨vs', r'⟩ := pr
                simp only [hir, Option.some.injEq, Prod.mk.injEq] at hp
                obtain ⟨tV, cV, htV, _⟩ := ihV (skipWs rh) v r₂ hv
                obtain ⟨t2, ht2⟩ := ihIR r₂ vs' r' hir
                obtain ⟨w₁, hw₁, _⟩ := skipWs_decomp rh
                refine ⟨w₀ ++ c :: w₁ ++ tV ++ cV :: t2, ?_⟩
                rw [hw₀, hsk, show rh = w₁ ++ skipWs rh from hw₁, htV, ht2, hp.2]
                simp
          · rw [if_neg hc, if_neg hcm] at hp
            exact absurd hp (by simp)
    · intro s kvs r hp
      rw [parseMembersStart_succ n s] at hp
      obtain ⟨w₀, hw₀, _⟩ := skipWs_decomp s
      cases hsk : skipWs s with
      | nil => rw [hsk] at hp; exact absurd hp (by simp)
      | cons c rh =>
        simp only [hsk] at hp
        by_cases hc : c = '\x7d'
        · rw [if_pos hc] at hp
          simp only [Option.some.injEq, Prod.mk.injEq] at hp
          subst hc
          exact ⟨w₀, by rw [hw₀, hsk, hp.2]⟩
        · by_cases hcq : c = '"'
          · rw [if_neg hc, if_pos hcq] at hp
            cases hpr : parseMemberPair (parseVal n) rh with
            | none => rw [hpr] at hp; exact absurd hp (by simp)
            | some kvr =>
              obtain ⟨kv, r₄⟩ := kvr
              simp only [hpr] at hp
              cases hmr : parseMembersRest n r₄ with
              | none => rw [hmr] at hp; exact absurd hp (by simp)
              | some pr =>
                obtain ⟨kvs', r'⟩ := pr
                simp only [hmr, Option.some.injEq, Prod.mk.injEq] at hp
                obtain ⟨tP, cP, htP, _⟩ := parseMemberPair_consumed ihV hpr
                obtain ⟨t2, ht2⟩ := ihMR r₄ kvs' r' hmr
                refine ⟨w₀ ++ c :: tP ++ cP :: t2, ?_⟩
                rw [hw₀, hsk, htP, ht2, hp.2]
                simp
          · rw [if_neg hc, if_neg hcq] at hp
            exact absurd hp (by simp)
    · intro s kvs r hp
      rw [parseMembersRest_succ n s] at hp
      obtain ⟨w₀, hw₀, _⟩ := skipWs_decomp s
      cases hsk : skipWs s with
      | nil => rw [hsk] at hp; exact absurd hp (by simp)
      | cons c rh =>
        simp only [hsk] at hp
        by_cases hc : c = '\x7d'
        · rw [if_pos hc] at hp
          simp only [Option.some.injEq, Prod.mk.injEq] at hp
          subst hc
          exact ⟨w₀, by rw [hw₀, hsk, hp.2]⟩
        · by_cases hcm : c = ','
          · rw [if_neg hc, if_pos hcm] at hp
            cases hsk2 : skipWs rh with
            | nil => rw [hsk2] at hp; exact absurd hp (by simp)
            | cons c₁ r₁ =>
              simp only [hsk2] at hp
              by_cases hcq : c₁ = '"'
              · rw [if_pos hcq] at hp
                cases hpr : parseMemberPair (parseVal n) r₁ with
                | none => rw [hpr] at hp; exact absurd hp (by simp)
                | some kvr =>
                  obtain ⟨kv, r₄⟩ := kvr
                  simp only [hpr] at hp
                  cases hmr : parseMembersRest n r₄ with
                  | none => rw [hmr] at hp; exact absurd hp (by simp)
                  | some pr =>
                    obtain ⟨kvs', r'⟩ := pr
                    simp only [hmr, Option.some.injEq, Prod.mk.injEq] at hp
                    obtain ⟨tP, cP, htP, _⟩ := parseMemberPair_consumed ihV hpr
                    obtain ⟨t2, ht2⟩ := ihMR r₄ kvs' r' hmr
                    obtain ⟨w₁, hw₁, _⟩ := skipWs_decomp rh
                    refine ⟨w₀ ++ c :: w₁ ++ c₁ :: tP ++ cP :: t2, ?_⟩
                    rw [hw₀, hsk, show rh = w₁ ++ skipWs rh from hw₁, hsk2, htP,
                      ht2, hp.2]
                    simp
              · rw [if_neg hcq] at hp
                exact absurd hp (by simp)
          · rw [if_neg hc, if_neg hcm] at hp
            exact absurd hp (by simp)


theorem trimEnd_eq_nil_iff {s : List Char} :
    trimEnd s = [] ↔ ∀ c ∈ s, jsWhite c = true := by
  constructor
  · intro h c hc
    have h0 : s.reverse.dropWhile jsWhite = [] := by
      have := congrArg List.reverse h
      simpa [trimEnd] using this
    exact List.dropWhile_eq_nil_iff.mp h0 c (List.mem_reverse.mpr hc)
  · intro h
    unfold trimEnd
    rw [List.dropWhile_eq_nil_iff.mpr (fun c hc => h c (List.mem_reverse.mp hc))]
    rfl

theorem jsTrim_append_allws {s w : List Char} (hw : ∀ c ∈ w, jsWhite c = true) :
    jsTrim (s ++ w) = jsTrim s := by
  unfold jsTrim
  rw [trimEnd_append_ws hw]

theorem jsTrim_allws_append {w s : List Char} (hw : ∀ c ∈ w, jsWhite c = true) :
    jsTrim (w ++ s) = jsTrim s := by
  by_cases h : trimEnd s = []
  · have hs : ∀ c ∈ s, jsWhite c = true := trimEnd_eq_nil_iff.mp h
    rw [jsTrim_eq_nil_iff.mpr hs, jsTrim_eq_nil_iff.mpr ?_]
    intro c hc
    rcases List.mem_append.mp hc with h1 | h1
    · exact hw c h1
    · exact hs c h1
  · unfold jsTrim
    rw [trimEnd_append_of_ne h, trimStart_ws_append hw]

theorem jsWhite_not_start {c : Char} (h : jsWhite c = true) :
    ¬(c = '\x7b') ∧ ¬(c = '[') ∧ ¬(c = '"') ∧ ¬(c = 't') ∧ ¬(c = 'f')
    ∧ ¬(c = 'n') ∧ ¬(c = '-') ∧ ¬(c = '0') ∧ Char.isDigit c = false := by
  have hm := jsWhite_mem h
  fin_cases hm <;>
    exact ⟨by decide, by decide, by decide, by decide, by decide, by decide,
      by decide, by decide, by decide⟩

theorem parseVal_jswhite_head {c : Char} (hc : jsWhite c = true) (f : Nat)
    (r : List Char) : parseVal f (c :: r) = none := by
  obtain ⟨h1, h2, h3, h4, h5, h6, hm, h0, hd⟩ := jsWhite_not_start hc
  cases f with
  | zero => rfl
  | succ n =>
    rw [parseVal_succ n c r]
    simp only [if_neg h1, if_neg h2, if_neg h3, if_neg h4, if_neg h5, if_neg h6]
    rw [parseNum_nosign hm r]
    rw [show parseIntPart (c :: r) = none from by
      simp [parseIntPart, h0, List.takeWhile_cons, hd]]

theorem jsonParse_all_ws {s : List Char} (hs : ∀ c ∈ s, jsWhite c = true) :
    jsonParse s = none := by
  unfold jsonParse
  cases hsk : skipWs s with
  | nil => rw [parseVal_nil]
  | cons c cs =>
    have hcmem : c ∈ s := by
      refine (List.dropWhile_suffix jsonWs).mem ?_
      rw [show List.dropWhile jsonWs s = skipWs s from rfl, hsk]
      exact List.mem_cons_self c cs
    rw [parseVal_jswhite_head (hs c hcmem)]

theorem jsonParse_ws_append {w s : List Char} (hw : ∀ c ∈ w, jsonWs c = true) :
    jsonParse (w ++ s) = jsonParse s := by
  unfold jsonParse
  rw [jsTrim_allws_append (fun c hc => jsonWs_imp_jsWhite (hw c hc))]
  rw [show skipWs (w ++ s) = skipWs s from by
    rw [skipWs_append, if_pos (by rw [skipWs_all_ws hw]; rfl)]]

theorem jsonParse_append_ws {s w : List Char} (hw : ∀ c ∈ w, jsonWs c = true) :
    jsonParse (s ++ w) = jsonParse s := by
  unfold jsonParse
  rw [jsTrim_append_allws (fun c hc => jsonWs_imp_jsWhite (hw c hc))]
  rw [skipWs_append]
  by_cases h : (skipWs s).isEmpty
  · rw [if_pos h, skipWs_all_ws hw, show skipWs s = [] from List.isEmpty_iff.mp h]
  · rw [if_neg h]
    rw [(parser_append_ws hw (2 * (jsTrim s).length + 2)).1 (skipWs s)]
    cases hv : parseVal (2 * (jsTrim s).length + 2) (skipWs s) with
    | none => rfl
    | some vr =>
      obtain ⟨v, rest⟩ := vr
      simp only [Option.map_some']
      rw [skipWs_append]
      by_cases h2 : (skipWs rest).isEmpty
      · rw [if_pos h2, skipWs_all_ws hw,
          show skipWs rest = [] from List.isEmpty_iff.mp h2]
      · rw [if_neg h2]
        have hne : skipWs rest ≠ [] := fun h0 => h2 (by rw [h0]; rfl)
        rw [if_neg (fun h0 => hne (List.append_eq_nil.mp h0).1), if_neg hne]

theorem jsonParse_trimEnd_of_some {s : List Char} {j : Json}
    (h : jsonParse s = some j) : jsonParse (trimEnd s) = some j := by
  have hmain : ∃ u b rest, s = (u ++ [b]) ++ rest
      ∧ (∀ c ∈ rest, jsonWs c = true) ∧ jsWhite b = false := by
    unfold jsonParse at h
    cases hv : parseVal (2 * (jsTrim s).length + 2) (skipWs s) with
    | none => rw [hv] at h; exact absurd h (by simp)
    | some vr =>
      obtain ⟨v, rest⟩ := vr
      simp only [hv] at h
      have hrest : skipWs rest = [] := by
        by_contra hc
        rw [if_neg hc] at h
        exact absurd h (by simp)
      have hrw : ∀ c ∈ rest, jsonWs c = true := List.dropWhile_eq_nil_iff.mp hrest
      obtain ⟨w₀, hw₀, hw₀ws⟩ := skipWs_decomp s
      obtain ⟨t, b, htb, hbw⟩ :=
        (parser_consumed (2 * (jsTrim s).length + 2)).1 (skipWs s) v rest hv
      refine ⟨w₀ ++ t, b, rest, ?_, hrw, hbw⟩
      rw [hw₀, htb]
      simp
  obtain ⟨u, b, rest, hsplit, hrw, hbw⟩ := hmain
  have hte : trimEnd s = u ++ [b] := by
    rw [hsplit, trimEnd_append_ws (fun c hc => jsonWs_imp_jsWhite (hrw c hc))]
    exact trimEnd_concat_not_ws hbw
  rw [hte]
  rw [show jsonParse (u ++ [b]) = jsonParse s from by
    conv_rhs => rw [hsplit]
    exact (jsonParse_append_ws hrw).symm]
  exact h

theorem jsonParse_trimStart_of_some {s : List Char} {j : Json}
    (h : jsonParse s = some j) : jsonParse (trimStart s) = some j := by
  have hske : skipWs s ≠ [] := by
    intro h0
    unfold jsonParse at h
    rw [h0, parseVal_nil] at h
    exact absurd h (by simp)
  cases hsk : skipWs s with
  | nil => exact absurd hsk hske
  | cons c cs =>
    have hcw : jsWhite c = false := by
      by_contra hcon
      rw [Bool.not_eq_false] at hcon
      unfold jsonParse at h
      rw [hsk, parseVal_jswhite_head hcon] at h
      exact absurd h (by simp)
    obtain ⟨w₀, hw₀, hw₀ws⟩ := skipWs_decomp s
    have hts : trimStart s = skipWs s := by
      rw [show trimStart s = trimStart (w₀ ++ skipWs s) from by rw [← hw₀]]
      rw [trimStart_ws_append (fun x hx => jsonWs_imp_jsWhite (hw₀ws x hx)), hsk]
      simp [trimStart, List.dropWhile_cons, hcw]
    rw [hts]
    rw [show jsonParse (skipWs s) = jsonParse s from by
      conv_rhs => rw [hw₀]
      exact (jsonParse_ws_append hw₀ws).symm]
    exact h

theorem jsonParse_jsTrim_of_some {s : List Char} {j : Json}
    (h : jsonParse s = some j) : jsonParse (jsTrim s) = some j :=
  jsonParse_trimStart_of_some (jsonParse_trimEnd_of_some h)


theorem jsonParse_trim_tame {L : List Char}
    (htame : ∀ c ∈ L, jsWhite c = true → jsonWs c = true) :
    jsonParse (trimEnd L) = jsonParse L
    ∧ jsonParse (jsTrim L) = jsonParse L := by
  obtain ⟨w, hLw, hwws⟩ := trimEnd_decomp L
  have hww : ∀ c ∈ w, jsonWs c = true := by
    intro c hc
    exact htame c (hLw ▸ List.mem_append_right _ hc) (hwws c hc)
  have h1 : jsonParse (trimEnd L) = jsonParse L := by
    conv_rhs => rw [hLw]
    exact (jsonParse_append_ws hww).symm
  obtain ⟨u, hTu, huws⟩ := trimStart_decomp (trimEnd L)
  have huw : ∀ c ∈ u, jsonWs c = true := by
    intro c hc
    exact htame c (mem_trimEnd (hTu ▸ List.mem_append_left _ hc)) (huws c hc)
  have h2 : jsonParse (jsTrim L) = jsonParse (trimEnd L) := by
    conv_rhs => rw [hTu]
    exact (jsonParse_ws_append huw).symm
  exact ⟨h1, h2.trans h1⟩

/--
C6.  For stdout consisting of diagnostic lines (ending in a newline, or
absent), a last non-empty line that parses as JSON and passes the
FeatureCollection check, and trailing whitespace, the close handler
returns exactly the value decoded from that last line, ignoring all
preceding lines; and for stdout that is entirely empty or whitespace the
close handler fails with the empty-response error.
-/
theorem parser_takes_last_nonempty_line (synErrMsg : List Char → List Char)
    (pre L post : List Char) (j : Json)
    (hpre : pre = [] ∨ ∃ p₀, pre = p₀ ++ ['\n'])
    (hL : '\n' ∉ L)
    (hparse : jsonParse L = some j)
    (hfc : fcError j = none)
    (hpost : ∀ c ∈ post, jsWhite c = true) :
    closeHandler synErrMsg 0 (pre ++ L ++ post) = .ok j
    ∧ ∀ s₀, (∀ c ∈ s₀, jsWhite c = true) →
        closeHandler synErrMsg 0 s₀
          = .error (.internalError (invalidFmtMsg emptyRespMsg)) := by
  have hnb : jsTrim L ≠ [] := by
    intro h0
    rw [jsonParse_all_ws (jsTrim_eq_nil_iff.mp h0)] at hparse
    exact absurd hparse (by simp)
  constructor
  · have hP : ∃ P, extractLastLine (pre ++ L ++ post) = some P
        ∧ jsonParse P = some j := by
      rcases extractLastLine_of_decomp hpre hL hnb hpost with h1 | h1
      · exact ⟨jsTrim L, h1, jsonParse_jsTrim_of_some hparse⟩
      · exact ⟨trimEnd L, h1, jsonParse_trimEnd_of_some hparse⟩
    obtain ⟨P, hPe, hPj⟩ := hP
    unfold closeHandler
    rw [if_neg (by simp)]
    simp only [hPe, hPj, hfc]
  · intro s₀ hs₀
    unfold closeHandler
    rw [if_neg (by simp)]
    rw [extractLastLine_all_ws hs₀]

theorem parser_takes_last_nonempty_line_witness :
    closeHandler (fun _ => []) 0
        ("Loading DSM...\n".data
          ++ "\x7b\"type\":\"FeatureCollection\",\"features\":[]\x7d".data
          ++ "\n".data)
      = .ok (Json.obj [("type".data, Json.str "FeatureCollection".data),
          ("features".data, Json.arr [])])
    ∧ closeHandler (fun _ => []) 0 "  \n\t ".data
      = .error (.internalError (invalidFmtMsg emptyRespMsg)) := by
  have h := parser_takes_last_nonempty_line (fun _ => [])
    "Loading DSM...\n".data
    "\x7b\"type\":\"FeatureCollection\",\"features\":[]\x7d".data
    "\n".data
    (Json.obj [("type".data, Json.str "FeatureCollection".data),
      ("features".data, Json.arr [])])
    (Or.inr ⟨"Loading DSM...".data, rfl⟩)
    (by decide)
    (by rfl)
    (by rfl)
    (by decide)
  exact ⟨h.1, h.2 "  \n\t ".data (by decide)⟩

/--
C10 counterexample.  At stdout `"\x7b\x7d" ++ [vertical tab]`, the
deployed extraction (trim, split, pop) selects `"\x7b\x7d"`, which
parses, while the earlier filter-based extraction selects
`"\x7b\x7d" ++ [vertical tab]`, which `JSON.parse` rejects (the vertical
tab is trimmed by `String.prototype.trim` but is not JSON whitespace):
the two implementations are not equivalent.
-/
theorem extraction_equivalence_cex :
    extractLastLine "\x7b\x7d\x0B".data = some "\x7b\x7d".data
    ∧ extractLastNonEmpty "\x7b\x7d\x0B".data = some "\x7b\x7d\x0B".data
    ∧ jsonParse "\x7b\x7d".data = some (Json.obj [])
    ∧ jsonParse "\x7b\x7d\x0B".data = none := by
  exact ⟨rfl, rfl, rfl, rfl⟩

/--
C10 amended.  For every stdout string whose whitespace is limited to
JSON whitespace (space, tab, LF, CR) — in particular every stdout free
of exotic characters such as vertical tab, form feed or non-breaking
space — the two extraction implementations agree: either both select
nothing, or both select a line and `JSON.parse` yields the same result
on the two selections.
-/
theorem extraction_equivalence_tame (stdoutData : List Char)
    (htame : ∀ c ∈ stdoutData, jsWhite c = true → jsonWs c = true) :
    (extractLastLine stdoutData = none ∧ extractLastNonEmpty stdoutData = none)
    ∨ ∃ P₁ P₂, extractLastLine stdoutData = some P₁
        ∧ extractLastNonEmpty stdoutData = some P₂
        ∧ jsonParse P₁ = jsonParse P₂ := by
  by_cases hall : ∀ c ∈ stdoutData, jsWhite c = true
  · exact Or.inl ⟨extractLastLine_all_ws hall, extractLastNonEmpty_all_ws hall⟩
  · right
    push_neg at hall
    obtain ⟨c, hcmem, hcw⟩ := hall
    have hcf : jsWhite c = false := by
      cases h0 : jsWhite c
      · rfl
      · exact absurd h0 hcw
    have hcnl : c ≠ '\n' := by
      intro h0
      rw [h0] at hcf
      exact absurd hcf (by decide)
    rcases mem_splitNl_cover hcmem with h0 | ⟨l, hl, hcl⟩
    · exact absurd h0 hcnl
    have hfilter : ((splitNl stdoutData).filter
        (fun l => !(jsTrim l).isEmpty)) ≠ [] := by
      intro h0
      have hl0 := List.filter_eq_nil_iff.mp h0 l hl
      have hl0n : jsTrim l = [] := by simpa using hl0
      exact absurd (jsTrim_eq_nil_iff.mp hl0n c hcl) (by rw [hcf]; simp)
    obtain ⟨pre, L, post, hsplit, hpre, hLnl, hnb, hpost, hlastf⟩ :=
      splitNl_last_nonblank stdoutData.length stdoutData le_rfl hfilter
    have he2 : extractLastNonEmpty stdoutData = some L := by
      unfold extractLastNonEmpty
      simp only [hlastf]
      rw [if_neg (fun h0 => hnb (by rw [h0]; rfl))]
    have htameL : ∀ c ∈ L, jsWhite c = true → jsonWs c = true := by
      intro x hx
      refine htame x ?_
      rw [hsplit]
      exact List.mem_append_left _ (List.mem_append_right _ hx)
    have htrim := jsonParse_trim_tame htameL
    rcases (hsplit ▸ extractLastLine_of_decomp hpre hLnl hnb hpost :
        extractLastLine stdoutData = some (jsTrim L)
        ∨ extractLastLine stdoutData = some (trimEnd L)) with h1 | h1
    · exact ⟨jsTrim L, L, h1, he2, htrim.2⟩
    · exact ⟨trimEnd L, L, h1, he2, htrim.1⟩

theorem extraction_equivalence_tame_witness :
    (extractLastLine "log line\n \x7b\"a\":1\x7d \n".data = none
      ∧ extractLastNonEmpty "log line\n \x7b\"a\":1\x7d \n".data = none)
    ∨ ∃ P₁ P₂,
        extractLastLine "log line\n \x7b\"a\":1\x7d \n".data = some P₁
        ∧ extractLastNonEmpty "log line\n \x7b\"a\":1\x7d \n".data = some P₂
        ∧ jsonParse P₁ = jsonParse P₂ :=
  extraction_equivalence_tame "log line\n \x7b\"a\":1\x7d \n".data (by decide)

end DsmViewshed
